import Mathlib

/-!
# Verification of `flutes/io.py`

A shallow embedding of the I/O helpers of the `flutes` repository
(`src/flutes/io.py`) together with proofs about the embedded code.

The file is organised as follows:
* byte/text model and the line-splitting function (Python `str.split` on
  a newline character);
* the backward chunked reverse-line generator
  (`_ReverseReadlineFile.generator`), including its decode-retry loop;
* an abstract model of a variable-width character encoding (the Python
  `bytes.decode(encoding)` collaborator);
* the progress-reporting buffered reader (`_ProgressBufferedReader`),
  `progress_open.__new__`, `reverse_open`, and the `shut_up` context
  manager;
* theorems settling the specification claims.
-/

set_option autoImplicit false

namespace Flutes

/-- A byte of the underlying binary file. -/
abbrev Byte := Nat

/-- Decoded text, as a list of code points. -/
abbrev Text := List Nat

/-- The newline code point, the separator used by `buffer.split('\n')`. -/
def NL : Nat := 10

/-- `_ReverseReadlineFile.MAX_CHAR_BYTES`: maximum length of a byte
sequence for any character in the target encoding (source line 131). -/
def MAX_CHAR_BYTES : Nat := 4

/-- Python exceptions that the embedded code can raise. -/
inductive PyErr where
  | unicodeDecodeError
  | indexError
  | valueError
  deriving DecidableEq, Repr

/-- Python `text.split('\n')` (source line 161 `buffer.split('\n')`):
splits on every newline, keeping empty fragments, and returns `[[]]`
for empty input. -/
def splitNl : Text → List Text
  | [] => [[]]
  | c :: rest =>
    if c = NL then [] :: splitNl rest
    else
      match splitNl rest with
      | [] => [[c]]
      | l :: ls => (c :: l) :: ls

/-- Python `lines[-1] += segment` (source line 170): append `s` to the
last element of a list of lines. -/
def appendToLast (s : Text) : List Text → List Text
  | [] => []
  | [l] => [l ++ s]
  | l :: l' :: ls => l :: appendToLast s (l' :: ls)

/-- Total last element of a list of lines (default `[]`), used to state
the decomposition lemmas below. -/
def lastI : List Text → Text
  | [] => []
  | [l] => l
  | _ :: l' :: ls => lastI (l' :: ls)

theorem lastI_cons_cons (l l' : Text) (ls : List Text) :
    lastI (l :: l' :: ls) = lastI (l' :: ls) := rfl

theorem splitNl_ne_nil (t : Text) : splitNl t ≠ [] := by
  cases t with
  | nil => simp [splitNl]
  | cons c rest =>
    simp only [splitNl]
    split
    · simp
    · split <;> simp

theorem splitNl_cons_of_ne (c : Nat) (t : Text) (h : c ≠ NL) :
    splitNl (c :: t) = (c :: (splitNl t).headI) :: (splitNl t).tail := by
  simp only [splitNl, if_neg h]
  cases ht : splitNl t with
  | nil => exact absurd ht (splitNl_ne_nil t)
  | cons l ls => simp [List.headI]

theorem splitNl_cons_nl (t : Text) : splitNl (NL :: t) = [] :: splitNl t := by
  simp [splitNl]

/-- Fragments produced by `splitNl` never contain the separator. -/
theorem headI_mem_splitNl (t : Text) : (splitNl t).headI ∈ splitNl t := by
  cases hs : splitNl t with
  | nil => exact absurd hs (splitNl_ne_nil t)
  | cons a as => simp [List.headI]

theorem not_nl_mem_of_mem_splitNl {t : Text} {l : Text} (h : l ∈ splitNl t) :
    NL ∉ l := by
  induction t generalizing l with
  | nil =>
    simp only [splitNl, List.mem_singleton] at h
    subst h
    simp
  | cons c rest ih =>
    by_cases hc : c = NL
    · subst hc
      rw [splitNl_cons_nl, List.mem_cons] at h
      rcases h with h | h
      · subst h; simp
      · exact ih h
    · rw [splitNl_cons_of_ne c rest hc, List.mem_cons] at h
      rcases h with h | h
      · subst h
        intro hmem
        rw [List.mem_cons] at hmem
        rcases hmem with hmem | hmem
        · exact hc hmem.symm
        · exact ih (headI_mem_splitNl rest) hmem
      · have : l ∈ splitNl rest := by
          cases hs : splitNl rest with
          | nil => exact absurd hs (splitNl_ne_nil rest)
          | cons a as =>
            rw [hs] at h
            exact List.mem_cons_of_mem a (by simpa using h)
        exact ih this

/-- A newline-free text splits into a single fragment. -/
theorem splitNl_eq_singleton {s : Text} (h : NL ∉ s) : splitNl s = [s] := by
  induction s with
  | nil => rfl
  | cons c rest ih =>
    have hc : c ≠ NL := fun hc => h (by simp [hc])
    have hrest : NL ∉ rest := fun hr => h (List.mem_cons_of_mem c hr)
    rw [splitNl_cons_of_ne c rest hc, ih hrest]
    rfl

theorem appendToLast_eq (s : Text) :
    ∀ (ls : List Text), ls ≠ [] →
      appendToLast s ls = ls.dropLast ++ [lastI ls ++ s]
  | [], h => absurd rfl h
  | [l], _ => rfl
  | l :: l' :: ls, _ => by
    have ih := appendToLast_eq s (l' :: ls) (by simp)
    simp only [appendToLast, lastI_cons_cons, List.dropLast_cons₂, List.cons_append, ih]

theorem dropLast_append_lastI_cons :
    ∀ (ls : List Text), ls ≠ [] → ∀ (rest : List Text),
      ls.dropLast ++ (lastI ls :: rest) = ls ++ rest
  | [], h, _ => absurd rfl h
  | [_], _, _ => rfl
  | a :: a' :: as, _, rest => by
    have ih := dropLast_append_lastI_cons (a' :: as) (by simp) rest
    simp only [lastI_cons_cons, List.dropLast_cons₂, List.cons_append, ih]

/-- The central decomposition: splitting a concatenation glues the last
fragment of the left part onto the first fragment of the right part. -/
theorem splitNl_append (a b : Text) :
    splitNl (a ++ b) =
      (splitNl a).dropLast ++
        ((lastI (splitNl a) ++ (splitNl b).headI) :: (splitNl b).tail) := by
  induction a with
  | nil =>
    simp only [List.nil_append, splitNl]
    cases hb : splitNl b with
    | nil => exact absurd hb (splitNl_ne_nil b)
    | cons l ls => simp [List.headI, lastI]
  | cons c rest ih =>
    by_cases hc : c = NL
    · subst hc
      rw [List.cons_append, splitNl_cons_nl, splitNl_cons_nl, ih]
      cases hs : splitNl rest with
      | nil => exact absurd hs (splitNl_ne_nil rest)
      | cons l ls => simp [lastI]
    · rw [List.cons_append, splitNl_cons_of_ne c _ hc, splitNl_cons_of_ne c rest hc, ih]
      cases hs : splitNl rest with
      | nil => exact absurd hs (splitNl_ne_nil rest)
      | cons l ls =>
        cases ls with
        | nil => simp [List.headI, lastI]
        | cons l' ls' => simp [List.headI, lastI_cons_cons]

/-- Splitting across an explicit newline concatenates the two splits. -/
theorem splitNl_append_nl (a b : Text) :
    splitNl (a ++ NL :: b) = splitNl a ++ splitNl b := by
  rw [splitNl_append, splitNl_cons_nl]
  cases hb : splitNl b with
  | nil => exact absurd hb (splitNl_ne_nil b)
  | cons m ms =>
    simp only [List.headI, List.tail, List.append_nil]
    rw [dropLast_append_lastI_cons (splitNl a) (splitNl_ne_nil a), ← hb]

theorem lastI_append_singleton (xs : List Text) (x : Text) :
    lastI (xs ++ [x]) = x := by
  induction xs with
  | nil => rfl
  | cons a as ih =>
    cases as with
    | nil => rfl
    | cons a' as' => simpa [lastI_cons_cons] using ih

/-- Appending newline-free text merges into the last fragment. -/
theorem splitNl_append_no_nl (a s : Text) (h : NL ∉ s) :
    splitNl (a ++ s) = appendToLast s (splitNl a) := by
  rw [splitNl_append, splitNl_eq_singleton h,
    appendToLast_eq s (splitNl a) (splitNl_ne_nil a)]
  rfl

/-- If the text ends in a newline, its last fragment is empty. -/
theorem lastI_splitNl_of_getLast_nl {v : Text} (h : v.getLast? = some NL) :
    lastI (splitNl v) = [] := by
  have hv : v.dropLast ++ [NL] = v := List.dropLast_append_getLast? NL h
  have : splitNl v = splitNl v.dropLast ++ [[]] := by
    conv_lhs => rw [← hv]
    have : v.dropLast ++ [NL] = v.dropLast ++ NL :: [] := rfl
    rw [this, splitNl_append_nl]
    rfl
  rw [this, lastI_append_singleton]

/-- A text containing a newline splits into at least two fragments. -/
theorem two_le_splitNl_length_of_mem {v : Text} (h : NL ∈ v) :
    2 ≤ (splitNl v).length := by
  obtain ⟨a, b, hab⟩ := List.append_of_mem h
  subst hab
  rw [splitNl_append_nl]
  have ha := splitNl_ne_nil a
  have hb := splitNl_ne_nil b
  rw [List.length_append]
  have ha1 : 1 ≤ (splitNl a).length := List.length_pos.mpr ha
  have hb1 : 1 ≤ (splitNl b).length := List.length_pos.mpr hb
  omega

/-- If the text ends in a non-newline character, it contains that
character in its last fragment; in particular the last fragment of the
split is obtained by the append decomposition. -/
theorem getLast_nl_of_lastI_nil {v : Text} (hv : v ≠ [])
    (h : lastI (splitNl v) = []) : v.getLast? = some NL := by
  by_contra hne
  obtain ⟨c, w, hcw⟩ := List.exists_cons_of_ne_nil (List.reverse_ne_nil_iff.mpr hv)
  have hvdec : v = w.reverse ++ [c] := by
    have := congrArg List.reverse hcw
    simpa using this
  have hc : c ≠ NL := by
    intro hcnl
    apply hne
    rw [hvdec, hcnl]
    simp
  rw [hvdec] at h
  have : splitNl (w.reverse ++ [c]) = appendToLast [c] (splitNl w.reverse) := by
    apply splitNl_append_no_nl
    simp [hc, Ne.symm hc]
  rw [this, appendToLast_eq [c] _ (splitNl_ne_nil w.reverse),
    lastI_append_singleton] at h
  simp at h

/-- The first fragment of a split is newline-free. -/
theorem headI_splitNl_no_nl (t : Text) : NL ∉ (splitNl t).headI :=
  not_nl_mem_of_mem_splitNl (headI_mem_splitNl t)

/-- If the left part of a concatenation splits into at least two
fragments, the first fragment of the whole split is its own. -/
theorem headI_splitNl_append_left {v : Text} (h2 : 2 ≤ (splitNl v).length)
    (b : Text) : (splitNl (v ++ b)).headI = (splitNl v).headI := by
  rw [splitNl_append]
  cases hsv : splitNl v with
  | nil => exact absurd hsv (splitNl_ne_nil v)
  | cons l0 ls =>
    cases ls with
    | nil => rw [hsv] at h2; simp at h2
    | cons l1 ls' => simp [List.headI, List.dropLast_cons₂]

/-- Replacing the right part of a concatenation by its first fragment
does not change the first fragment of the split. -/
theorem headI_splitNl_append (a b : Text) :
    (splitNl (a ++ (splitNl b).headI)).headI = (splitNl (a ++ b)).headI := by
  have hno : NL ∉ (splitNl b).headI := headI_splitNl_no_nl b
  rw [splitNl_append a b, splitNl_append a ((splitNl b).headI),
    splitNl_eq_singleton hno]
  cases hs : splitNl a with
  | nil => exact absurd hs (splitNl_ne_nil a)
  | cons l ls =>
    cases ls with
    | nil => simp [List.headI, lastI]
    | cons l' ls' => simp [List.headI]

/-! ## The reverse-line generator

`_ReverseReadlineFile.generator` (source lines 133-179), embedded as a
fuel-indexed pure function.  The file is a byte list; `fp.seek`/`fp.read`
become list slicing; the Python generator's lazily yielded lines become
the returned list, paired with the exception (if any) that terminates the
stream.  Yields that happen before an exception is raised are part of the
returned list, matching the streaming semantics.

`genLoopT` additionally tags every yield with which `yield` statement in
the source produced it: the mid-stream `yield segment` (line 172), the
`yield lines[index]` of the split-tail loop (line 176), or the final
`yield segment` after the loop (line 179). -/

/-- Which `yield` statement of the source emitted a line. -/
inductive YTag where
  | flushSeg
  | splitLine
  | finalSeg
  deriving DecidableEq, Repr

/-- The decode-retry loop (source lines 146-157): try to decode; on
failure with attempts left, drop the first byte of the chunk and shrink
the effective chunk size and offset by one.  `trials` is the number of
attempts remaining; the source runs it with `MAX_CHAR_BYTES` attempts
and re-raises the decode error when they are exhausted (`none`). -/
def decodeRetry (decode : List Byte → Option Text) :
    Nat → List Byte → Nat → Nat → Option (Text × Nat × Nat)
  | 0, _, _, _ => none
  | trials + 1, bufferBytes, curBufSize, offset =>
    match decode bufferBytes with
    | some buffer => some (buffer, curBufSize, offset)
    | none =>
      if trials = 0 then none
      else decodeRetry decode trials (bufferBytes.drop 1) (curBufSize - 1) (offset - 1)

/-- The `yield segment` after the loop (source lines 178-179): yield the
pending segment unless the file was empty (`segment is None`). -/
def finalYield : Option Text → List (YTag × Text)
  | some s => [(YTag.finalSeg, s)]
  | none => []

/-- The split-tail loop (source lines 174-176): yield `lines[index]` for
`index` from `len(lines) - 1` down to `1`, skipping empty lines unless
they are allowed. -/
def chunkTailYields (allowEmptyLines : Bool) (lines : List Text) : List Text :=
  (lines.tail.filter (fun l => allowEmptyLines || !l.isEmpty)).reverse

/-- Tagged embedding of the generator's `while remaining_size > 0` loop
(source lines 140-179).  State: `segment` (pending first fragment),
`offset` (distance from end of file to the start of the next chunk) and
`remaining` (bytes not yet consumed).  `fuel` bounds the number of
iterations; every run of interest consumes at least one byte per
iteration, so `file.length + 1` fuel is always enough. -/
def genLoopT (decode : List Byte → Option Text) (allowEmptyLines : Bool)
    (file : List Byte) (bufSize : Nat) :
    Nat → Option Text → Nat → Nat → List (YTag × Text) × Option PyErr
  | 0, segment, _, remaining =>
    if remaining = 0 then (finalYield segment, none) else ([], none)
  | fuel + 1, segment, offset, remaining =>
    if remaining = 0 then (finalYield segment, none)
    else
      let offset1 := min file.length (offset + bufSize)
      let bufferBytes := (file.drop (file.length - offset1)).take (min remaining bufSize)
      match decodeRetry decode MAX_CHAR_BYTES bufferBytes bufSize offset1 with
      | none => ([], some PyErr.unicodeDecodeError)
      | some (buffer, curBufSize, offset2) =>
        let remaining2 := remaining - curBufSize
        let lines := splitNl buffer
        match segment with
        | none =>
          let rest := genLoopT decode allowEmptyLines file bufSize fuel
            (some lines.headI) offset2 remaining2
          ((chunkTailYields allowEmptyLines lines).map (fun l => (YTag.splitLine, l)) ++ rest.1,
            rest.2)
        | some seg =>
          match buffer.getLast? with
          | none => ([], some PyErr.indexError)
          | some c =>
            if c ≠ NL then
              let lines2 := appendToLast seg lines
              let rest := genLoopT decode allowEmptyLines file bufSize fuel
                (some lines2.headI) offset2 remaining2
              ((chunkTailYields allowEmptyLines lines2).map (fun l => (YTag.splitLine, l)) ++ rest.1,
                rest.2)
            else
              let rest := genLoopT decode allowEmptyLines file bufSize fuel
                (some lines.headI) offset2 remaining2
              ((YTag.flushSeg, seg) ::
                ((chunkTailYields allowEmptyLines lines).map (fun l => (YTag.splitLine, l)) ++ rest.1),
                rest.2)

/-- The generator's loop exactly as callers observe it (no tags): a
direct translation of source lines 140-179. -/
def genLoop (decode : List Byte → Option Text) (allowEmptyLines : Bool)
    (file : List Byte) (bufSize : Nat) :
    Nat → Option Text → Nat → Nat → List Text × Option PyErr
  | 0, segment, _, remaining =>
    if remaining = 0 then ((finalYield segment).map Prod.snd, none) else ([], none)
  | fuel + 1, segment, offset, remaining =>
    if remaining = 0 then ((finalYield segment).map Prod.snd, none)
    else
      let offset1 := min file.length (offset + bufSize)
      let bufferBytes := (file.drop (file.length - offset1)).take (min remaining bufSize)
      match decodeRetry decode MAX_CHAR_BYTES bufferBytes bufSize offset1 with
      | none => ([], some PyErr.unicodeDecodeError)
      | some (buffer, curBufSize, offset2) =>
        let remaining2 := remaining - curBufSize
        let lines := splitNl buffer
        match segment with
        | none =>
          let rest := genLoop decode allowEmptyLines file bufSize fuel
            (some lines.headI) offset2 remaining2
          (chunkTailYields allowEmptyLines lines ++ rest.1, rest.2)
        | some seg =>
          match buffer.getLast? with
          | none => ([], some PyErr.indexError)
          | some c =>
            if c ≠ NL then
              let lines2 := appendToLast seg lines
              let rest := genLoop decode allowEmptyLines file bufSize fuel
                (some lines2.headI) offset2 remaining2
              (chunkTailYields allowEmptyLines lines2 ++ rest.1, rest.2)
            else
              let rest := genLoop decode allowEmptyLines file bufSize fuel
                (some lines.headI) offset2 remaining2
              (seg :: (chunkTailYields allowEmptyLines lines ++ rest.1), rest.2)

/-- The generator, with tagged yields: initial state per source lines
135-139 (`segment = None`, `offset = 0`, `remaining_size = file_size`). -/
def generatorT (decode : List Byte → Option Text) (allowEmptyLines : Bool)
    (file : List Byte) (bufSize : Nat) : List (YTag × Text) × Option PyErr :=
  genLoopT decode allowEmptyLines file bufSize (file.length + 1) none 0 file.length

/-- The generator as observed by callers: the sequence of yielded lines
together with the terminating exception, if any. -/
def generator (decode : List Byte → Option Text) (allowEmptyLines : Bool)
    (file : List Byte) (bufSize : Nat) : List Text × Option PyErr :=
  genLoop decode allowEmptyLines file bufSize (file.length + 1) none 0 file.length

/-- Erasing the tags of the instrumented loop gives the plain loop. -/
theorem genLoop_eq_genLoopT (decode : List Byte → Option Text)
    (allowEmptyLines : Bool) (file : List Byte) (bufSize : Nat) :
    ∀ (fuel : Nat) (segment : Option Text) (offset remaining : Nat),
      genLoop decode allowEmptyLines file bufSize fuel segment offset remaining =
        ((genLoopT decode allowEmptyLines file bufSize fuel segment offset remaining).1.map
            Prod.snd,
          (genLoopT decode allowEmptyLines file bufSize fuel segment offset remaining).2)
  | 0, segment, offset, remaining => by
    by_cases h : remaining = 0 <;> simp [genLoop, genLoopT, h]
  | fuel + 1, segment, offset, remaining => by
    by_cases h : remaining = 0
    · simp [genLoop, genLoopT, h]
    · simp only [genLoop, genLoopT, if_neg h]
      cases hdec : decodeRetry decode MAX_CHAR_BYTES
          ((file.drop (file.length - min file.length (offset + bufSize))).take
            (min remaining bufSize))
          bufSize (min file.length (offset + bufSize)) with
      | none => simp
      | some res =>
        obtain ⟨buffer, curBufSize, offset2⟩ := res
        simp only
        cases segment with
        | none =>
          rw [genLoop_eq_genLoopT decode allowEmptyLines file bufSize fuel]
          simp
        | some seg =>
          cases hlast : buffer.getLast? with
          | none => simp
          | some c =>
            by_cases hc : c = NL
            · simp only [hc, if_neg (by simp : ¬(NL ≠ NL))]
              rw [genLoop_eq_genLoopT decode allowEmptyLines file bufSize fuel]
              simp
            · simp only [if_pos hc]
              rw [genLoop_eq_genLoopT decode allowEmptyLines file bufSize fuel]
              simp

/-- The generator and its tagged variant agree after erasure. -/
theorem generator_eq_generatorT (decode : List Byte → Option Text)
    (allowEmptyLines : Bool) (file : List Byte) (bufSize : Nat) :
    generator decode allowEmptyLines file bufSize =
      ((generatorT decode allowEmptyLines file bufSize).1.map Prod.snd,
        (generatorT decode allowEmptyLines file bufSize).2) :=
  genLoop_eq_genLoopT decode allowEmptyLines file bufSize _ none 0 file.length

/-- A one-byte-per-character encoding (every byte decodes): the simplest
instance of the abstract encoding interface, used for concrete runs. -/
def asciiDecode (bs : List Byte) : Option Text := some bs

example :
    generator asciiDecode false [113, 113, 10, 10, 97, 98, 99] 4 =
      ([[97, 98, 99], [], [113, 113]], none) := by decide

example :
    generator asciiDecode false [113, 113, 10, 10, 97, 98, 99] 8192 =
      ([[97, 98, 99], [113, 113]], none) := by decide

example :
    generator asciiDecode true [97, 98, 10, 99, 100, 101, 102] 4 =
      ([[99, 100, 101, 102], [], [97, 98]], none) := by decide

example :
    generator asciiDecode true [97, 98, 10, 99, 100, 101, 102] 8192 =
      ([[99, 100, 101, 102], [97, 98]], none) := by decide

example : generator asciiDecode false [10] 4 = ([[]], none) := by decide

example : generator asciiDecode false [] 4 = ([], none) := by decide

/-! ## Abstract variable-width encodings

The generator delegates decoding to `bytes.decode(encoding)` (source
line 150), an external collaborator parameterised by the `encoding`
argument.  We model the collaborator abstractly: an encoding of code
points into byte sequences, and a decode function.  `GoodEncoding`
states the properties the spec assumes of the target encoding: every
character occupies between 1 and `MAX_CHAR_BYTES` bytes, decoding a
well-formed byte string recovers its characters, and decoding fails
while the leading bytes are the tail of a split multi-byte character. -/

/-- Encode a text one character at a time. -/
def encodeText (enc : Nat → List Byte) (t : Text) : List Byte :=
  (t.map enc).flatten

/-- Byte length of an encoded text. -/
def byteLen (enc : Nat → List Byte) (t : Text) : Nat :=
  (encodeText enc t).length

theorem encodeText_nil (enc : Nat → List Byte) : encodeText enc [] = [] := rfl

theorem encodeText_cons (enc : Nat → List Byte) (c : Nat) (t : Text) :
    encodeText enc (c :: t) = enc c ++ encodeText enc t := by
  simp [encodeText]

theorem encodeText_append (enc : Nat → List Byte) (a b : Text) :
    encodeText enc (a ++ b) = encodeText enc a ++ encodeText enc b := by
  simp [encodeText]

theorem byteLen_nil (enc : Nat → List Byte) : byteLen enc [] = 0 := rfl

theorem byteLen_cons (enc : Nat → List Byte) (c : Nat) (t : Text) :
    byteLen enc (c :: t) = (enc c).length + byteLen enc t := by
  simp [byteLen, encodeText_cons]

theorem byteLen_append (enc : Nat → List Byte) (a b : Text) :
    byteLen enc (a ++ b) = byteLen enc a + byteLen enc b := by
  simp [byteLen, encodeText_append]

/-- The decode collaborator of a well-behaved variable-width encoding. -/
structure GoodEncoding (enc : Nat → List Byte) (decode : List Byte → Option Text) : Prop where
  enc_pos : ∀ c, (enc c).length ≠ 0
  enc_le : ∀ c, (enc c).length ≤ MAX_CHAR_BYTES
  decode_encode : ∀ t : Text, decode (encodeText enc t) = some t
  decode_drop : ∀ (c : Nat) (t : Text) (k : Nat), 0 < k → k < (enc c).length →
    decode ((enc c).drop k ++ encodeText enc t) = none

/-- One-byte-per-character encoding function paired with `asciiDecode`. -/
def asciiEnc (c : Nat) : List Byte := [c]

theorem encodeText_asciiEnc (t : Text) : encodeText asciiEnc t = t := by
  induction t with
  | nil => rfl
  | cons c rest ih => simp [encodeText_cons, asciiEnc, ih]

theorem goodEncoding_ascii : GoodEncoding asciiEnc asciiDecode where
  enc_pos := fun _ => by simp [asciiEnc]
  enc_le := fun _ => by simp [asciiEnc, MAX_CHAR_BYTES]
  decode_encode := fun t => by simp [asciiDecode, encodeText_asciiEnc]
  decode_drop := fun c _ k hk hlt => by
    simp [asciiEnc] at hlt
    omega

theorem byteLen_pos {enc : Nat → List Byte} {decode : List Byte → Option Text}
    (hE : GoodEncoding enc decode) {t : Text} (h : t ≠ []) :
    0 < byteLen enc t := by
  cases t with
  | nil => exact absurd rfl h
  | cons c rest =>
    rw [byteLen_cons]
    have := hE.enc_pos c
    omega

theorem eq_nil_of_byteLen_eq_zero {enc : Nat → List Byte}
    {decode : List Byte → Option Text} (hE : GoodEncoding enc decode) {t : Text}
    (h : byteLen enc t = 0) : t = [] := by
  by_contra hne
  have := byteLen_pos hE hne
  omega

/-- Split a text into `(u, v)` where `v` is the longest suffix whose
encoding fits into `n` bytes.  A backward chunk of `n` bytes covers
exactly the characters of `v`, plus `n - byteLen v` trailing bytes of
the character preceding `v` (if any). -/
def splitSuffix (enc : Nat → List Byte) (n : Nat) : Text → Text × Text
  | [] => ([], [])
  | c :: rest =>
    if byteLen enc (c :: rest) ≤ n then ([], c :: rest)
    else
      ((splitSuffix enc n rest).1.cons c, (splitSuffix enc n rest).2)

theorem splitSuffix_append (enc : Nat → List Byte) (n : Nat) :
    ∀ t : Text, (splitSuffix enc n t).1 ++ (splitSuffix enc n t).2 = t
  | [] => rfl
  | c :: rest => by
    rw [splitSuffix]
    split
    · rfl
    · simpa using splitSuffix_append enc n rest

theorem splitSuffix_byteLen_le (enc : Nat → List Byte) (n : Nat) :
    ∀ t : Text, byteLen enc (splitSuffix enc n t).2 ≤ n
  | [] => by simp [splitSuffix, byteLen_nil]
  | c :: rest => by
    rw [splitSuffix]
    split
    · assumption
    · simpa using splitSuffix_byteLen_le enc n rest

theorem splitSuffix_fst_nil (enc : Nat → List Byte) {n : Nat} {t : Text}
    (h : byteLen enc t ≤ n) : splitSuffix enc n t = ([], t) := by
  cases t with
  | nil => rfl
  | cons c rest => rw [splitSuffix, if_pos h]

theorem splitSuffix_fst_eq_nil (enc : Nat → List Byte) {n : Nat} :
    ∀ {t : Text}, (splitSuffix enc n t).1 = [] → (splitSuffix enc n t).2 = t := by
  intro t
  cases t with
  | nil => intro _; rfl
  | cons b bs =>
    rw [splitSuffix]
    split
    · intro _; rfl
    · intro h; simp at h

/-- The character immediately before the suffix does not fit: adding it
overflows the byte budget. -/
theorem splitSuffix_tight (enc : Nat → List Byte) (n : Nat) :
    ∀ (t : Text) (u : Text) (c : Nat),
      (splitSuffix enc n t).1 = u ++ [c] →
      n < byteLen enc (c :: (splitSuffix enc n t).2)
  | [], u, c, h => by simp [splitSuffix] at h
  | a :: rest, u, c, h => by
    rw [splitSuffix] at h ⊢
    by_cases hle : byteLen enc (a :: rest) ≤ n
    · rw [if_pos hle] at h
      simp at h
    · rw [if_neg hle] at h ⊢
      simp only at h ⊢
      rcases List.eq_nil_or_concat (splitSuffix enc n rest).1 with hnil | ⟨u', c', hconc⟩
      · rw [hnil] at h
        have hu : u = [] := by
          cases u with
          | nil => rfl
          | cons x xs =>
            have := congrArg List.length h
            simp at this
        subst hu
        simp only [List.nil_append, List.cons.injEq] at h
        obtain ⟨hac, -⟩ := h
        subst hac
        rw [splitSuffix_fst_eq_nil enc hnil]
        omega
      · rw [List.concat_eq_append] at hconc
        rw [hconc] at h
        have h2 : (a :: u') ++ [c'] = u ++ [c] := by simpa using h
        obtain ⟨hu, hc⟩ := List.append_inj' h2 rfl
        have hcc : c' = c := by simpa using hc
        subst hcc
        exact splitSuffix_tight enc n rest u' c' hconc

/-! ## Resolving the decode-retry loop -/

/-- If the first `d ≤ 3` attempts fail and the next one succeeds, the
retry loop returns the decoded text with chunk size and offset both
shrunk by `d` (one per dropped leading byte). -/
theorem decodeRetry_success (decode : List Byte → Option Text)
    (bs : List Byte) (cbs off : Nat) (d : Nat) (t : Text) (hd : d ≤ 3)
    (hfail : ∀ j, j < d → decode (bs.drop j) = none)
    (hsucc : decode (bs.drop d) = some t) :
    decodeRetry decode MAX_CHAR_BYTES bs cbs off = some (t, cbs - d, off - d) := by
  interval_cases d
  · simp only [List.drop_zero] at hsucc
    simp [decodeRetry, MAX_CHAR_BYTES, hsucc]
  · have h0 := hfail 0 (by omega)
    simp only [List.drop_zero] at h0
    simp only [List.drop_one] at hsucc
    simp [decodeRetry, MAX_CHAR_BYTES, h0, hsucc]
  · have h0 := hfail 0 (by omega)
    have h1 := hfail 1 (by omega)
    simp only [List.drop_zero] at h0
    simp only [List.drop_one] at h1
    simp [decodeRetry, MAX_CHAR_BYTES, h0, h1, List.drop_drop, hsucc,
      Nat.sub_sub]
  · have h0 := hfail 0 (by omega)
    have h1 := hfail 1 (by omega)
    have h2 := hfail 2 (by omega)
    simp only [List.drop_zero] at h0
    simp only [List.drop_one] at h1
    simp [decodeRetry, MAX_CHAR_BYTES, h0, h1, h2, List.drop_drop, hsucc,
      Nat.sub_sub]

/-- If all `MAX_CHAR_BYTES` attempts fail, the retry loop re-raises
the decode error. -/
theorem decodeRetry_exhausted (decode : List Byte → Option Text)
    (bs : List Byte) (cbs off : Nat)
    (hfail : ∀ j, j ≤ 3 → decode (bs.drop j) = none) :
    decodeRetry decode MAX_CHAR_BYTES bs cbs off = none := by
  have h0 := hfail 0 (by omega)
  have h1 := hfail 1 (by omega)
  have h2 := hfail 2 (by omega)
  have h3 := hfail 3 (by omega)
  simp only [List.drop_zero] at h0
  simp only [List.drop_one] at h1
  simp [decodeRetry, MAX_CHAR_BYTES, h0, h1, h2, h3, List.drop_drop]

/-- Decoding a backward chunk of `m` bytes of the encoding of `T1`: the
retry loop drops exactly the `d` leading bytes that are the tail of a
character split by the chunk boundary, and returns the characters of the
byte-suffix `V = (splitSuffix enc m T1).2`, with chunk size and offset
shrunk by `d`. -/
theorem chunk_decode {enc : Nat → List Byte} {decode : List Byte → Option Text}
    (hE : GoodEncoding enc decode) (T1 : Text) (m : Nat)
    (hm : m ≤ byteLen enc T1) (cbs off : Nat) :
    m - byteLen enc (splitSuffix enc m T1).2 ≤ 3 ∧
      decodeRetry decode MAX_CHAR_BYTES
          ((encodeText enc T1).drop (byteLen enc T1 - m)) cbs off =
        some ((splitSuffix enc m T1).2,
          cbs - (m - byteLen enc (splitSuffix enc m T1).2),
          off - (m - byteLen enc (splitSuffix enc m T1).2)) := by
  rcases List.eq_nil_or_concat (splitSuffix enc m T1).1 with hnil | ⟨u', c, hconc⟩
  · have hV : (splitSuffix enc m T1).2 = T1 := splitSuffix_fst_eq_nil enc hnil
    have hle := splitSuffix_byteLen_le enc m T1
    rw [hV] at hle ⊢
    have hm' : m = byteLen enc T1 := le_antisymm hm hle
    have hz : m - byteLen enc T1 = 0 := by omega
    refine ⟨by omega, ?_⟩
    rw [hz, hm', Nat.sub_self, List.drop_zero, Nat.sub_zero, Nat.sub_zero]
    exact decodeRetry_success decode _ cbs off 0 T1 (by omega)
      (fun j hj => absurd hj (by omega))
      (by simpa using hE.decode_encode T1)
  · rw [List.concat_eq_append] at hconc
    have htight := splitSuffix_tight enc m T1 u' c hconc
    have hvle := splitSuffix_byteLen_le enc m T1
    have hT1 : T1 = u' ++ c :: (splitSuffix enc m T1).2 := by
      conv_lhs => rw [← splitSuffix_append enc m T1]
      rw [hconc]
      simp
    rw [byteLen_cons] at htight
    have hdlt : m - byteLen enc (splitSuffix enc m T1).2 < (enc c).length := by omega
    have hd3 : m - byteLen enc (splitSuffix enc m T1).2 ≤ 3 := by
      have := hE.enc_le c
      rw [MAX_CHAR_BYTES] at this
      omega
    have hlen : byteLen enc T1 =
        byteLen enc u' + ((enc c).length + byteLen enc (splitSuffix enc m T1).2) := by
      conv_lhs => rw [hT1]
      rw [byteLen_append, byteLen_cons]
    generalize hgen : (splitSuffix enc m T1).2 = v2 at hvle hT1 hdlt hd3 hlen ⊢
    refine ⟨hd3, ?_⟩
    have hbytes : (encodeText enc T1).drop (byteLen enc T1 - m) =
        (enc c).drop ((enc c).length - (m - byteLen enc v2)) ++
          encodeText enc v2 := by
      have hsplit : byteLen enc T1 - m =
          (encodeText enc u').length +
            ((enc c).length - (m - byteLen enc v2)) := by
        have : (encodeText enc u').length = byteLen enc u' := rfl
        omega
      rw [hsplit]
      conv_lhs => rw [hT1, encodeText_append, encodeText_cons]
      rw [List.drop_append, List.drop_append_of_le_length (by omega)]
    rw [hbytes]
    apply decodeRetry_success decode _ cbs off
      (m - byteLen enc v2) v2 hd3
    · intro j hj
      have hlendrop : ((enc c).drop
          ((enc c).length - (m - byteLen enc v2))).length =
          m - byteLen enc v2 := by
        rw [List.length_drop]
        omega
      have hdropj : ((enc c).drop
            ((enc c).length - (m - byteLen enc v2)) ++
            encodeText enc v2).drop j =
          (enc c).drop
              ((enc c).length - (m - byteLen enc v2) + j) ++
            encodeText enc v2 := by
        rw [List.drop_append_of_le_length (by omega), List.drop_drop]
      rw [hdropj]
      exact hE.decode_drop c v2 _ (by omega) (by omega)
    · have hlendrop : ((enc c).drop
          ((enc c).length - (m - byteLen enc v2))).length =
          m - byteLen enc v2 := by
        rw [List.length_drop]
        omega
      have hdropd : ((enc c).drop
            ((enc c).length - (m - byteLen enc v2)) ++
            encodeText enc v2).drop
            (m - byteLen enc v2) =
          encodeText enc v2 := by
        rw [List.drop_append_of_le_length (by omega), List.drop_drop,
          List.drop_eq_nil_of_le (by omega)]
        simp
      rw [hdropd]
      exact hE.decode_encode v2

/-! ## One iteration of the generator loop on a well-formed file -/

/-- On a well-formed file, a chunk always decodes to a nonempty text
(given a legal buffer size and a nonempty unread prefix). -/
theorem splitSuffix_snd_ne_nil {enc : Nat → List Byte} {decode : List Byte → Option Text}
    (hE : GoodEncoding enc decode) {T1 : Text} (h1 : T1 ≠ []) {bufSize : Nat}
    (hbuf : 4 ≤ bufSize) :
    (splitSuffix enc (min (byteLen enc T1) bufSize) T1).2 ≠ [] := by
  intro hVnil
  rcases List.eq_nil_or_concat
      (splitSuffix enc (min (byteLen enc T1) bufSize) T1).1 with hnil | ⟨u', c, hconc⟩
  · have := splitSuffix_fst_eq_nil enc hnil
    rw [hVnil] at this
    exact h1 this.symm
  · rw [List.concat_eq_append] at hconc
    have htight := splitSuffix_tight enc (min (byteLen enc T1) bufSize) T1 u' c hconc
    rw [hVnil, byteLen_cons, byteLen_nil] at htight
    have hle := hE.enc_le c
    rw [MAX_CHAR_BYTES] at hle
    by_cases hcase : byteLen enc T1 ≤ min (byteLen enc T1) bufSize
    · have := splitSuffix_fst_nil enc hcase
      rw [this] at hconc
      simp at hconc
    · omega

/-- If the decoded chunk contains a newline, merging the pending segment
into its last fragment does not change its first fragment. -/
theorem headI_splitNl_append_of_mem {v s : Text} (hv : NL ∈ v) (hs : NL ∉ s) :
    (splitNl (v ++ s)).headI = (splitNl v).headI := by
  rw [splitNl_append_no_nl v s hs]
  have h2 := two_le_splitNl_length_of_mem hv
  cases hsp : splitNl v with
  | nil => exact absurd hsp (splitNl_ne_nil v)
  | cons l ls =>
    cases ls with
    | nil => rw [hsp] at h2; simp at h2
    | cons l' ls' => simp [appendToLast, List.headI]

/-- One iteration of the loop on a well-formed file.  With `T1` the
unread prefix (nonempty) and `T2` the already-processed suffix of the
file, the chunk decodes to `V`, the suffix of `T1` whose encoding fits
in `min (byteLen T1) bufSize` bytes; `d` bytes of a split character are
dropped by the retry loop, shrinking the chunk size and offset. -/
theorem genLoopT_unfold_decoded {enc : Nat → List Byte} {decode : List Byte → Option Text}
    (hE : GoodEncoding enc decode) (bufSize : Nat)
    (T1 T2 : Text) (h1 : T1 ≠ []) (b : Bool) (fuel : Nat) (segment : Option Text)
    (m : Nat) (hm : m = min (byteLen enc T1) bufSize)
    (V : Text) (hV : V = (splitSuffix enc m T1).2)
    (d : Nat) (hd : d = m - byteLen enc V) :
    genLoopT decode b (encodeText enc (T1 ++ T2)) bufSize (fuel + 1) segment
        (byteLen enc T2) (byteLen enc T1) =
      (match segment with
       | none =>
         ((chunkTailYields b (splitNl V)).map (fun l => (YTag.splitLine, l)) ++
             (genLoopT decode b (encodeText enc (T1 ++ T2)) bufSize fuel
               (some (splitNl V).headI) (byteLen enc V + byteLen enc T2)
               (byteLen enc T1 - (bufSize - d))).1,
           (genLoopT decode b (encodeText enc (T1 ++ T2)) bufSize fuel
             (some (splitNl V).headI) (byteLen enc V + byteLen enc T2)
             (byteLen enc T1 - (bufSize - d))).2)
       | some seg =>
         match V.getLast? with
         | none => ([], some PyErr.indexError)
         | some c =>
           if c ≠ NL then
             ((chunkTailYields b (appendToLast seg (splitNl V))).map
                 (fun l => (YTag.splitLine, l)) ++
               (genLoopT decode b (encodeText enc (T1 ++ T2)) bufSize fuel
                 (some (appendToLast seg (splitNl V)).headI)
                 (byteLen enc V + byteLen enc T2)
                 (byteLen enc T1 - (bufSize - d))).1,
               (genLoopT decode b (encodeText enc (T1 ++ T2)) bufSize fuel
                 (some (appendToLast seg (splitNl V)).headI)
                 (byteLen enc V + byteLen enc T2)
                 (byteLen enc T1 - (bufSize - d))).2)
           else
             ((YTag.flushSeg, seg) ::
                 ((chunkTailYields b (splitNl V)).map (fun l => (YTag.splitLine, l)) ++
                   (genLoopT decode b (encodeText enc (T1 ++ T2)) bufSize fuel
                     (some (splitNl V).headI) (byteLen enc V + byteLen enc T2)
                     (byteLen enc T1 - (bufSize - d))).1),
               (genLoopT decode b (encodeText enc (T1 ++ T2)) bufSize fuel
                 (some (splitNl V).headI) (byteLen enc V + byteLen enc T2)
                 (byteLen enc T1 - (bufSize - d))).2)) := by
  subst hm
  subst hV
  subst hd
  have hr0 : ¬byteLen enc T1 = 0 := by
    have := byteLen_pos hE h1
    omega
  have hE1len : (encodeText enc T1).length = byteLen enc T1 := rfl
  have hlenE : (encodeText enc (T1 ++ T2)).length = byteLen enc T1 + byteLen enc T2 := by
    rw [encodeText_append, List.length_append]
    rfl
  have hvle := splitSuffix_byteLen_le enc (min (byteLen enc T1) bufSize) T1
  have hminE : min (encodeText enc (T1 ++ T2)).length (byteLen enc T2 + bufSize) =
      byteLen enc T2 + min (byteLen enc T1) bufSize := by omega
  have hsubE : (encodeText enc (T1 ++ T2)).length -
      (byteLen enc T2 + min (byteLen enc T1) bufSize) =
      byteLen enc T1 - min (byteLen enc T1) bufSize := by omega
  have htake : ((encodeText enc (T1 ++ T2)).drop
        (byteLen enc T1 - min (byteLen enc T1) bufSize)).take
        (min (byteLen enc T1) bufSize) =
      (encodeText enc T1).drop (byteLen enc T1 - min (byteLen enc T1) bufSize) := by
    rw [encodeText_append, List.drop_append_of_le_length (by omega)]
    apply List.take_left'
    rw [List.length_drop]
    omega
  have hdec := (chunk_decode hE T1 (min (byteLen enc T1) bufSize) (by omega) bufSize
    (byteLen enc T2 + min (byteLen enc T1) bufSize)).2
  have hoff2 : byteLen enc T2 + min (byteLen enc T1) bufSize -
      (min (byteLen enc T1) bufSize -
        byteLen enc (splitSuffix enc (min (byteLen enc T1) bufSize) T1).2) =
      byteLen enc (splitSuffix enc (min (byteLen enc T1) bufSize) T1).2 +
        byteLen enc T2 := by omega
  simp only [genLoopT, if_neg hr0]
  rw [hminE, hsubE, htake, hdec, hoff2]

/-! ## The lines the generator is expected to emit -/

/-- The lines a state `(T1, pending segment s)` still has to produce,
with empty-line suppression on (`allow_empty_lines=False`): the
fragments of `w = T1 ++ s` other than the first, nonempty ones only, in
reverse order, followed by the unfiltered first fragment (the final
pending-segment flush). -/
def restLines (w : Text) : List Text :=
  ((splitNl w).tail.filter (fun l => !l.isEmpty)).reverse ++ [(splitNl w).headI]

/-- The physical lines of a text under the trailing-newline convention:
all fragments of the split, except that a trailing empty fragment
(produced by a final newline) is not a line. -/
def fileLines (t : Text) : List Text :=
  if lastI (splitNl t) = [] then (splitNl t).dropLast else splitNl t

/-- With `allow_empty_lines=True` the split-tail loop yields every
fragment. -/
theorem chunkTailYields_true (lines : List Text) :
    chunkTailYields true lines = lines.tail.reverse := by
  simp [chunkTailYields]

/-- Consuming one backward chunk preserves the expected remaining
output: processing `w` after the unread prefix `u` first emits the
filtered non-first fragments of `w`, leaving the state `u` with pending
segment `headI (splitNl w)`.  This holds for arbitrary `u`, `w`. -/
theorem restLines_step (u w : Text) :
    restLines (u ++ w) =
      chunkTailYields false (splitNl w) ++ restLines (u ++ (splitNl w).headI) := by
  have hno : NL ∉ (splitNl w).headI := headI_splitNl_no_nl w
  rw [restLines, restLines, splitNl_append u w, splitNl_append u ((splitNl w).headI),
    splitNl_eq_singleton hno]
  cases hsu : splitNl u with
  | nil => exact absurd hsu (splitNl_ne_nil u)
  | cons x su' =>
    cases su' with
    | nil =>
      simp [chunkTailYields, List.headI, lastI]
    | cons y su'' =>
      simp only [List.dropLast_cons₂, List.cons_append, List.headI, List.tail,
        lastI_cons_cons, chunkTailYields, List.filter_append, List.reverse_append,
        List.tail_cons, List.append_assoc]
      simp only [Bool.false_or]
      rw [List.filter_cons, List.filter_cons]
      split_ifs <;> simp

/-- When the pending segment is nonempty and the chunk ends in a
newline, flushing the segment and filtering the chunk's fragments is the
same as filtering the fragments of the merged text: the chunk's trailing
empty fragment is dropped by the filter, and the flushed segment appears
exactly where the merged last fragment would. -/
theorem flush_yields_eq {v s : Text} (hv : v.getLast? = some NL) (hs : NL ∉ s)
    (hne : s ≠ []) :
    s :: chunkTailYields false (splitNl v) =
      chunkTailYields false (splitNl (v ++ s)) := by
  rw [splitNl_append_no_nl v s hs, appendToLast_eq s (splitNl v) (splitNl_ne_nil v),
    lastI_splitNl_of_getLast_nl hv, List.nil_append]
  have h2 : 2 ≤ (splitNl v).length :=
    two_le_splitNl_length_of_mem (List.mem_of_mem_getLast? hv)
  cases hsv : splitNl v with
  | nil => exact absurd hsv (splitNl_ne_nil v)
  | cons l0 ls =>
    cases ls with
    | nil => rw [hsv] at h2; simp at h2
    | cons l1 ls' =>
      have hlast : lastI (l1 :: ls') = [] := by
        have := lastI_splitNl_of_getLast_nl hv
        rw [hsv, lastI_cons_cons] at this
        exact this
      have hdec : (l1 :: ls').dropLast ++ [lastI (l1 :: ls')] = l1 :: ls' := by
        have := dropLast_append_lastI_cons (l1 :: ls') (by simp) []
        simpa using this
      rw [hlast] at hdec
      simp only [chunkTailYields, List.dropLast_cons₂, List.cons_append, List.tail_cons]
      conv_lhs => rw [← hdec]
      have hsne : (!s.isEmpty) = true := by
        simp [List.isEmpty_iff, hne]
      simp [List.filter_append, List.reverse_append, hsne]

/-! ## Loop invariants -/

/-- Facts about one chunk step: the decoded suffix is nonempty, it
splits `T1`, the loop's new `remaining` equals the byte length of the
not-yet-read prefix, and that prefix is strictly shorter. -/
theorem step_facts {enc : Nat → List Byte} {decode : List Byte → Option Text}
    (hE : GoodEncoding enc decode) {bufSize : Nat} (hbuf : 4 ≤ bufSize)
    {T1 : Text} (h1 : T1 ≠ []) :
    (splitSuffix enc (min (byteLen enc T1) bufSize) T1).2 ≠ [] ∧
      (splitSuffix enc (min (byteLen enc T1) bufSize) T1).1 ++
        (splitSuffix enc (min (byteLen enc T1) bufSize) T1).2 = T1 ∧
      byteLen enc T1 -
          (bufSize - (min (byteLen enc T1) bufSize -
            byteLen enc (splitSuffix enc (min (byteLen enc T1) bufSize) T1).2)) =
        byteLen enc (splitSuffix enc (min (byteLen enc T1) bufSize) T1).1 ∧
      byteLen enc (splitSuffix enc (min (byteLen enc T1) bufSize) T1).1 <
        byteLen enc T1 := by
  have hVne := splitSuffix_snd_ne_nil hE h1 hbuf
  have happ := splitSuffix_append enc (min (byteLen enc T1) bufSize) T1
  have hUV : byteLen enc (splitSuffix enc (min (byteLen enc T1) bufSize) T1).1 +
      byteLen enc (splitSuffix enc (min (byteLen enc T1) bufSize) T1).2 =
      byteLen enc T1 := by
    conv_rhs => rw [← happ]
    rw [byteLen_append]
  have hvle := splitSuffix_byteLen_le enc (min (byteLen enc T1) bufSize) T1
  have hVpos : 0 < byteLen enc (splitSuffix enc (min (byteLen enc T1) bufSize) T1).2 :=
    byteLen_pos hE hVne
  have hTpos := byteLen_pos hE h1
  refine ⟨hVne, happ, ?_, by omega⟩
  by_cases hcase : byteLen enc T1 ≤ min (byteLen enc T1) bufSize
  · have hfix := splitSuffix_fst_nil enc hcase
    rw [hfix] at hUV ⊢
    simp only [byteLen_nil] at hUV ⊢
    omega
  · omega

/-- If the chunk ends in a newline while the pending segment is empty,
the file has an empty non-final line, contradicting `hP`:  the flushed
pending segment is therefore nonempty on such files. -/
theorem pending_ne_nil_of_flush {T U V T2 : Text} (hT : T = (U ++ V) ++ T2)
    (hP : ∀ l ∈ (splitNl T).dropLast, l ≠ []) (hT2 : T2 ≠ [])
    (hlast : V.getLast? = some NL) : (splitNl T2).headI ≠ [] := by
  intro hnil
  obtain ⟨T2', hT2'⟩ : ∃ T2', T2 = NL :: T2' := by
    cases T2 with
    | nil => exact absurd rfl hT2
    | cons c rest =>
      by_cases hc : c = NL
      · exact ⟨rest, by rw [hc]⟩
      · rw [splitNl_cons_of_ne c rest hc] at hnil
        simp [List.headI] at hnil
  have hV : V.dropLast ++ [NL] = V := List.dropLast_append_getLast? NL hlast
  have hTsplit : splitNl T = splitNl (U ++ V.dropLast) ++ ([] :: splitNl T2') := by
    conv_lhs => rw [hT, hT2', ← hV]
    have hassoc : (U ++ (V.dropLast ++ [NL])) ++ NL :: T2' =
        (U ++ V.dropLast) ++ NL :: (NL :: T2') := by simp
    rw [hassoc, splitNl_append_nl, splitNl_cons_nl]
  have hmem : ([] : Text) ∈ (splitNl T).dropLast := by
    rw [hTsplit]
    cases hs2 : splitNl T2' with
    | nil => exact absurd hs2 (splitNl_ne_nil T2')
    | cons a as =>
      rw [List.dropLast_append_of_ne_nil _ (by simp)]
      simp
  exact hP [] hmem rfl

/-- `genLoopT_unfold_decoded` when the chunk does not end in a newline:
the pending segment is concatenated onto the chunk's last fragment
(source lines 169-170). -/
theorem genLoopT_step_concat {enc : Nat → List Byte} {decode : List Byte → Option Text}
    (hE : GoodEncoding enc decode) (bufSize : Nat)
    (T1 T2 : Text) (h1 : T1 ≠ []) (b : Bool) (fuel : Nat) (seg : Text)
    (m : Nat) (hm : m = min (byteLen enc T1) bufSize)
    (V : Text) (hV : V = (splitSuffix enc m T1).2)
    (d : Nat) (hd : d = m - byteLen enc V)
    (c : Nat) (hlast : V.getLast? = some c) (hc : c ≠ NL) :
    genLoopT decode b (encodeText enc (T1 ++ T2)) bufSize (fuel + 1) (some seg)
        (byteLen enc T2) (byteLen enc T1) =
      ((chunkTailYields b (appendToLast seg (splitNl V))).map
          (fun l => (YTag.splitLine, l)) ++
        (genLoopT decode b (encodeText enc (T1 ++ T2)) bufSize fuel
          (some (appendToLast seg (splitNl V)).headI)
          (byteLen enc V + byteLen enc T2)
          (byteLen enc T1 - (bufSize - d))).1,
        (genLoopT decode b (encodeText enc (T1 ++ T2)) bufSize fuel
          (some (appendToLast seg (splitNl V)).headI)
          (byteLen enc V + byteLen enc T2)
          (byteLen enc T1 - (bufSize - d))).2) := by
  rw [genLoopT_unfold_decoded hE bufSize T1 T2 h1 b fuel (some seg) m hm V hV d hd]
  show (match V.getLast? with
    | none => ([], some PyErr.indexError)
    | some c =>
      if c ≠ NL then _ else _) = _
  rw [hlast]
  simp only [if_pos hc]

/-- `genLoopT_unfold_decoded` when the chunk ends in a newline: the
pending segment is complete and flushed first (source lines 171-172). -/
theorem genLoopT_step_flush {enc : Nat → List Byte} {decode : List Byte → Option Text}
    (hE : GoodEncoding enc decode) (bufSize : Nat)
    (T1 T2 : Text) (h1 : T1 ≠ []) (b : Bool) (fuel : Nat) (seg : Text)
    (m : Nat) (hm : m = min (byteLen enc T1) bufSize)
    (V : Text) (hV : V = (splitSuffix enc m T1).2)
    (d : Nat) (hd : d = m - byteLen enc V)
    (hlast : V.getLast? = some NL) :
    genLoopT decode b (encodeText enc (T1 ++ T2)) bufSize (fuel + 1) (some seg)
        (byteLen enc T2) (byteLen enc T1) =
      ((YTag.flushSeg, seg) ::
          ((chunkTailYields b (splitNl V)).map (fun l => (YTag.splitLine, l)) ++
            (genLoopT decode b (encodeText enc (T1 ++ T2)) bufSize fuel
              (some (splitNl V).headI) (byteLen enc V + byteLen enc T2)
              (byteLen enc T1 - (bufSize - d))).1),
        (genLoopT decode b (encodeText enc (T1 ++ T2)) bufSize fuel
          (some (splitNl V).headI) (byteLen enc V + byteLen enc T2)
          (byteLen enc T1 - (bufSize - d))).2) := by
  rw [genLoopT_unfold_decoded hE bufSize T1 T2 h1 b fuel (some seg) m hm V hV d hd]
  show (match V.getLast? with
    | none => ([], some PyErr.indexError)
    | some c =>
      if c ≠ NL then _ else _) = _
  rw [hlast]
  simp only [ne_eq, not_true_eq_false, if_false, ite_false]

/-- `genLoopT_unfold_decoded`, specialised to the first iteration
(`segment is None`, source lines 165-173 skipped). -/
theorem genLoopT_step_none {enc : Nat → List Byte} {decode : List Byte → Option Text}
    (hE : GoodEncoding enc decode) (bufSize : Nat)
    (T1 T2 : Text) (h1 : T1 ≠ []) (b : Bool) (fuel : Nat)
    (m : Nat) (hm : m = min (byteLen enc T1) bufSize)
    (V : Text) (hV : V = (splitSuffix enc m T1).2)
    (d : Nat) (hd : d = m - byteLen enc V) :
    genLoopT decode b (encodeText enc (T1 ++ T2)) bufSize (fuel + 1) none
        (byteLen enc T2) (byteLen enc T1) =
      ((chunkTailYields b (splitNl V)).map (fun l => (YTag.splitLine, l)) ++
          (genLoopT decode b (encodeText enc (T1 ++ T2)) bufSize fuel
            (some (splitNl V).headI) (byteLen enc V + byteLen enc T2)
            (byteLen enc T1 - (bufSize - d))).1,
        (genLoopT decode b (encodeText enc (T1 ++ T2)) bufSize fuel
          (some (splitNl V).headI) (byteLen enc V + byteLen enc T2)
          (byteLen enc T1 - (bufSize - d))).2) := by
  rw [genLoopT_unfold_decoded hE bufSize T1 T2 h1 b fuel none m hm V hV d hd]

/-- The loop invariant with `allow_empty_lines=False` on a file whose
non-final fragments are all nonempty: from the state in which the
suffix `T2` of the file has been consumed with its first fragment
pending, the loop emits exactly `restLines (T1 ++ pending)` and
terminates without error. -/
theorem genLoopT_false_run {enc : Nat → List Byte} {decode : List Byte → Option Text}
    (hE : GoodEncoding enc decode) {bufSize : Nat} (hbuf : 4 ≤ bufSize)
    (T : Text) (hP : ∀ l ∈ (splitNl T).dropLast, l ≠ []) :
    ∀ (fuel : Nat) (T1 T2 : Text), T = T1 ++ T2 → T2 ≠ [] →
      byteLen enc T1 ≤ fuel →
      ((genLoopT decode false (encodeText enc T) bufSize fuel
            (some (splitNl T2).headI) (byteLen enc T2) (byteLen enc T1)).1.map
          Prod.snd =
        restLines (T1 ++ (splitNl T2).headI)) ∧
      (genLoopT decode false (encodeText enc T) bufSize fuel
          (some (splitNl T2).headI) (byteLen enc T2) (byteLen enc T1)).2 = none := by
  intro fuel
  induction fuel with
  | zero =>
    intro T1 T2 hT hT2 hfuel
    have h10 : byteLen enc T1 = 0 := Nat.le_zero.mp hfuel
    have h1 : T1 = [] := eq_nil_of_byteLen_eq_zero hE h10
    subst h1
    rw [byteLen_nil]
    have hsingle : splitNl ((splitNl T2).headI) = [(splitNl T2).headI] :=
      splitNl_eq_singleton (headI_splitNl_no_nl T2)
    constructor
    · simp [genLoopT, finalYield, restLines, hsingle]
    · simp [genLoopT]
  | succ f ih =>
    intro T1 T2 hT hT2 hfuel
    by_cases h1 : T1 = []
    · subst h1
      rw [byteLen_nil]
      have hsingle : splitNl ((splitNl T2).headI) = [(splitNl T2).headI] :=
        splitNl_eq_singleton (headI_splitNl_no_nl T2)
      constructor
      · simp [genLoopT, finalYield, restLines, hsingle]
      · simp [genLoopT]
    · have hsno : NL ∉ (splitNl T2).headI := headI_splitNl_no_nl T2
      obtain ⟨hVne, happ, hrem, hlt⟩ := step_facts hE hbuf h1
      have hT' : T = (splitSuffix enc (min (byteLen enc T1) bufSize) T1).1 ++
          ((splitSuffix enc (min (byteLen enc T1) bufSize) T1).2 ++ T2) := by
        rw [hT]
        conv_lhs => rw [← happ]
        rw [List.append_assoc]
      have hT2' : (splitSuffix enc (min (byteLen enc T1) bufSize) T1).2 ++ T2 ≠ [] := by
        intro hx
        exact hVne (List.append_eq_nil.mp hx).1
      have hfuel' : byteLen enc (splitSuffix enc (min (byteLen enc T1) bufSize) T1).1 ≤
          f := by omega
      have ihU := ih (splitSuffix enc (min (byteLen enc T1) bufSize) T1).1
        ((splitSuffix enc (min (byteLen enc T1) bufSize) T1).2 ++ T2) hT' hT2' hfuel'
      have hT1s : T1 ++ (splitNl T2).headI =
          (splitSuffix enc (min (byteLen enc T1) bufSize) T1).1 ++
            ((splitSuffix enc (min (byteLen enc T1) bufSize) T1).2 ++
              (splitNl T2).headI) := by
        conv_lhs => rw [← happ]
        rw [List.append_assoc]
      have hcomp : Prod.snd ∘ (fun l : Text => ((YTag.splitLine, l) : YTag × Text)) =
          id := rfl
      by_cases hcnl :
          (splitSuffix enc (min (byteLen enc T1) bufSize) T1).2.getLast hVne = NL
      · -- flush branch: the chunk ends in a newline
        have hc : (splitSuffix enc (min (byteLen enc T1) bufSize) T1).2.getLast? =
            some NL := by
          rw [List.getLast?_eq_getLast _ hVne, hcnl]
        have hstep := genLoopT_step_flush hE bufSize T1 T2 h1 false f
          ((splitNl T2).headI)
          (min (byteLen enc T1) bufSize) rfl
          ((splitSuffix enc (min (byteLen enc T1) bufSize) T1).2) rfl
          (min (byteLen enc T1) bufSize -
            byteLen enc (splitSuffix enc (min (byteLen enc T1) bufSize) T1).2) rfl hc
        rw [hrem] at hstep
        rw [show byteLen enc (splitSuffix enc (min (byteLen enc T1) bufSize) T1).2 +
              byteLen enc T2 =
            byteLen enc ((splitSuffix enc (min (byteLen enc T1) bufSize) T1).2 ++ T2) from
          (byteLen_append enc _ T2).symm] at hstep
        have hmemNL : NL ∈ (splitSuffix enc (min (byteLen enc T1) bufSize) T1).2 :=
          List.mem_of_mem_getLast? hc
        have h2 := two_le_splitNl_length_of_mem hmemNL
        rw [← headI_splitNl_append_left h2 T2] at hstep
        have hsne : (splitNl T2).headI ≠ [] :=
          pending_ne_nil_of_flush (by rw [hT]; conv_lhs => rw [← happ]) hP hT2 hc
        rw [← hT] at hstep
        rw [hstep]
        constructor
        · simp only [List.map_cons, List.map_append, List.map_map, hcomp, List.map_id]
          rw [ihU.1]
          rw [hT1s, restLines_step
            (splitSuffix enc (min (byteLen enc T1) bufSize) T1).1
            ((splitSuffix enc (min (byteLen enc T1) bufSize) T1).2 ++ (splitNl T2).headI)]
          rw [headI_splitNl_append _ T2]
          rw [← flush_yields_eq hc hsno hsne]
          simp
        · exact ihU.2
      · -- concat branch: merge the pending segment into the last fragment
        have hstep := genLoopT_step_concat hE bufSize T1 T2 h1 false f
          ((splitNl T2).headI)
          (min (byteLen enc T1) bufSize) rfl
          ((splitSuffix enc (min (byteLen enc T1) bufSize) T1).2) rfl
          (min (byteLen enc T1) bufSize -
            byteLen enc (splitSuffix enc (min (byteLen enc T1) bufSize) T1).2) rfl
          ((splitSuffix enc (min (byteLen enc T1) bufSize) T1).2.getLast hVne)
          (List.getLast?_eq_getLast _ hVne) hcnl
        rw [hrem] at hstep
        rw [show byteLen enc (splitSuffix enc (min (byteLen enc T1) bufSize) T1).2 +
              byteLen enc T2 =
            byteLen enc ((splitSuffix enc (min (byteLen enc T1) bufSize) T1).2 ++ T2) from
          (byteLen_append enc _ T2).symm] at hstep
        rw [show appendToLast (splitNl T2).headI
              (splitNl (splitSuffix enc (min (byteLen enc T1) bufSize) T1).2) =
            splitNl ((splitSuffix enc (min (byteLen enc T1) bufSize) T1).2 ++
              (splitNl T2).headI) from
          (splitNl_append_no_nl _ _ hsno).symm] at hstep
        rw [headI_splitNl_append _ T2] at hstep
        rw [← hT] at hstep
        rw [hstep]
        constructor
        · simp only [List.map_append, List.map_map, hcomp, List.map_id]
          rw [ihU.1]
          rw [hT1s, restLines_step
            (splitSuffix enc (min (byteLen enc T1) bufSize) T1).1
            ((splitSuffix enc (min (byteLen enc T1) bufSize) T1).2 ++ (splitNl T2).headI)]
          rw [headI_splitNl_append _ T2]
        · exact ihU.2

/-- For both settings of `allow_empty_lines`, a run over a well-formed
file ends with exactly one final-segment yield, whose content is the
file's first split fragment, and terminates without error. -/
theorem genLoopT_final_run {enc : Nat → List Byte} {decode : List Byte → Option Text}
    (hE : GoodEncoding enc decode) (b : Bool) {bufSize : Nat} (hbuf : 4 ≤ bufSize)
    (T : Text) :
    ∀ (fuel : Nat) (T1 T2 : Text), T = T1 ++ T2 → T2 ≠ [] →
      byteLen enc T1 ≤ fuel →
      ∃ ys,
        genLoopT decode b (encodeText enc T) bufSize fuel
            (some (splitNl T2).headI) (byteLen enc T2) (byteLen enc T1) =
          (ys ++ [(YTag.finalSeg, (splitNl T).headI)], none) ∧
        ∀ p ∈ ys, p.1 ≠ YTag.finalSeg := by
  intro fuel
  induction fuel with
  | zero =>
    intro T1 T2 hT hT2 hfuel
    have h10 : byteLen enc T1 = 0 := Nat.le_zero.mp hfuel
    have h1 : T1 = [] := eq_nil_of_byteLen_eq_zero hE h10
    subst h1
    rw [byteLen_nil]
    refine ⟨[], ?_, by simp⟩
    rw [hT, List.nil_append]
    simp [genLoopT, finalYield]
  | succ f ih =>
    intro T1 T2 hT hT2 hfuel
    by_cases h1 : T1 = []
    · subst h1
      rw [byteLen_nil]
      refine ⟨[], ?_, by simp⟩
      rw [hT, List.nil_append]
      simp [genLoopT, finalYield]
    · have hsno : NL ∉ (splitNl T2).headI := headI_splitNl_no_nl T2
      obtain ⟨hVne, happ, hrem, hlt⟩ := step_facts hE hbuf h1
      have hT' : T = (splitSuffix enc (min (byteLen enc T1) bufSize) T1).1 ++
          ((splitSuffix enc (min (byteLen enc T1) bufSize) T1).2 ++ T2) := by
        rw [hT]
        conv_lhs => rw [← happ]
        rw [List.append_assoc]
      have hT2' : (splitSuffix enc (min (byteLen enc T1) bufSize) T1).2 ++ T2 ≠ [] := by
        intro hx
        exact hVne (List.append_eq_nil.mp hx).1
      have hfuel' : byteLen enc (splitSuffix enc (min (byteLen enc T1) bufSize) T1).1 ≤
          f := by omega
      obtain ⟨ys', hrun', htags'⟩ := ih (splitSuffix enc (min (byteLen enc T1) bufSize) T1).1
        ((splitSuffix enc (min (byteLen enc T1) bufSize) T1).2 ++ T2) hT' hT2' hfuel'
      by_cases hcnl :
          (splitSuffix enc (min (byteLen enc T1) bufSize) T1).2.getLast hVne = NL
      · have hc : (splitSuffix enc (min (byteLen enc T1) bufSize) T1).2.getLast? =
            some NL := by
          rw [List.getLast?_eq_getLast _ hVne, hcnl]
        have hstep := genLoopT_step_flush hE bufSize T1 T2 h1 b f
          ((splitNl T2).headI)
          (min (byteLen enc T1) bufSize) rfl
          ((splitSuffix enc (min (byteLen enc T1) bufSize) T1).2) rfl
          (min (byteLen enc T1) bufSize -
            byteLen enc (splitSuffix enc (min (byteLen enc T1) bufSize) T1).2) rfl hc
        rw [hrem] at hstep
        rw [show byteLen enc (splitSuffix enc (min (byteLen enc T1) bufSize) T1).2 +
              byteLen enc T2 =
            byteLen enc ((splitSuffix enc (min (byteLen enc T1) bufSize) T1).2 ++ T2) from
          (byteLen_append enc _ T2).symm] at hstep
        have hmemNL : NL ∈ (splitSuffix enc (min (byteLen enc T1) bufSize) T1).2 :=
          List.mem_of_mem_getLast? hc
        have h2 := two_le_splitNl_length_of_mem hmemNL
        rw [← headI_splitNl_append_left h2 T2] at hstep
        rw [← hT] at hstep
        rw [hstep, hrun']
        refine ⟨(YTag.flushSeg, (splitNl T2).headI) ::
          ((chunkTailYields b
              (splitNl (splitSuffix enc (min (byteLen enc T1) bufSize) T1).2)).map
            (fun l => (YTag.splitLine, l)) ++ ys'), by simp, ?_⟩
        intro p hp
        rw [List.mem_cons] at hp
        rcases hp with hp | hp
        · subst hp; simp
        · rw [List.mem_append] at hp
          rcases hp with hp | hp
          · obtain ⟨l, -, hl⟩ := List.mem_map.mp hp
            rw [← hl]
            simp
          · exact htags' p hp
      · have hstep := genLoopT_step_concat hE bufSize T1 T2 h1 b f
          ((splitNl T2).headI)
          (min (byteLen enc T1) bufSize) rfl
          ((splitSuffix enc (min (byteLen enc T1) bufSize) T1).2) rfl
          (min (byteLen enc T1) bufSize -
            byteLen enc (splitSuffix enc (min (byteLen enc T1) bufSize) T1).2) rfl
          ((splitSuffix enc (min (byteLen enc T1) bufSize) T1).2.getLast hVne)
          (List.getLast?_eq_getLast _ hVne) hcnl
        rw [hrem] at hstep
        rw [show byteLen enc (splitSuffix enc (min (byteLen enc T1) bufSize) T1).2 +
              byteLen enc T2 =
            byteLen enc ((splitSuffix enc (min (byteLen enc T1) bufSize) T1).2 ++ T2) from
          (byteLen_append enc _ T2).symm] at hstep
        rw [show appendToLast (splitNl T2).headI
              (splitNl (splitSuffix enc (min (byteLen enc T1) bufSize) T1).2) =
            splitNl ((splitSuffix enc (min (byteLen enc T1) bufSize) T1).2 ++
              (splitNl T2).headI) from
          (splitNl_append_no_nl _ _ hsno).symm] at hstep
        rw [headI_splitNl_append _ T2] at hstep
        rw [← hT] at hstep
        rw [hstep, hrun']
        refine ⟨(chunkTailYields b
            (splitNl ((splitSuffix enc (min (byteLen enc T1) bufSize) T1).2 ++
              (splitNl T2).headI))).map (fun l => (YTag.splitLine, l)) ++ ys',
          by simp, ?_⟩
        intro p hp
        rw [List.mem_append] at hp
        rcases hp with hp | hp
        · obtain ⟨l, -, hl⟩ := List.mem_map.mp hp
          rw [← hl]
          simp
        · exact htags' p hp

theorem mem_chunkTailYields_false_ne_nil {lines : List Text} {l : Text}
    (h : l ∈ chunkTailYields false lines) : l ≠ [] := by
  simp only [chunkTailYields, List.mem_reverse, List.mem_filter, Bool.false_or] at h
  rcases h with ⟨-, h⟩
  simpa [List.isEmpty_iff] using h

/-- With `allow_empty_lines=False`, every line emitted by the
split-tail loop (source line 176) is nonempty, whatever the file, the
decode function or the loop state: the guard on source line 175 filters
them.  Pending-segment flushes are not covered: they bypass the guard. -/
theorem splitLine_yields_ne_nil (decode : List Byte → Option Text)
    (file : List Byte) (bufSize : Nat) :
    ∀ (fuel : Nat) (segment : Option Text) (offset remaining : Nat) (l : Text),
      (YTag.splitLine, l) ∈
        (genLoopT decode false file bufSize fuel segment offset remaining).1 →
      l ≠ [] := by
  intro fuel
  induction fuel with
  | zero =>
    intro segment offset remaining l hmem
    by_cases hr : remaining = 0 <;>
      cases segment <;>
        simp [genLoopT, hr, finalYield] at hmem
  | succ f ih =>
    intro segment offset remaining l hmem
    by_cases hr : remaining = 0
    · cases segment <;> simp [genLoopT, hr, finalYield] at hmem
    · simp only [genLoopT, if_neg hr] at hmem
      split at hmem
      · simp at hmem
      · split at hmem
        · -- segment is None
          rw [List.mem_append] at hmem
          rcases hmem with hmem | hmem
          · obtain ⟨l', hl', heq⟩ := List.mem_map.mp hmem
            have : l' = l := congrArg Prod.snd heq
            subst this
            exact mem_chunkTailYields_false_ne_nil hl'
          · exact ih _ _ _ l hmem
        · -- some segment
          split at hmem
          · simp at hmem
          · split at hmem
            · rw [List.mem_append] at hmem
              rcases hmem with hmem | hmem
              · obtain ⟨l', hl', heq⟩ := List.mem_map.mp hmem
                have : l' = l := congrArg Prod.snd heq
                subst this
                exact mem_chunkTailYields_false_ne_nil hl'
              · exact ih _ _ _ l hmem
            · rw [List.mem_cons] at hmem
              rcases hmem with hmem | hmem
              · simp at hmem
              · rw [List.mem_append] at hmem
                rcases hmem with hmem | hmem
                · obtain ⟨l', hl', heq⟩ := List.mem_map.mp hmem
                  have : l' = l := congrArg Prod.snd heq
                  subst this
                  exact mem_chunkTailYields_false_ne_nil hl'
                · exact ih _ _ _ l hmem

/-- If a nonempty text splits into a single fragment, that fragment is
nonempty. -/
theorem headI_splitNl_ne_nil_of_singleton {T : Text} (hT : T ≠ [])
    (h1 : (splitNl T).length = 1) : (splitNl T).headI ≠ [] := by
  cases T with
  | nil => exact absurd rfl hT
  | cons c rest =>
    by_cases hc : c = NL
    · subst hc
      rw [splitNl_cons_nl] at h1
      have := splitNl_ne_nil rest
      simp at h1
      exact absurd h1 this
    · rw [splitNl_cons_of_ne c rest hc]
      simp

theorem filter_eq_self_of_ne_nil {D : List Text} (h : ∀ x ∈ D, x ≠ []) :
    D.filter (fun l => !l.isEmpty) = D := by
  induction D with
  | nil => rfl
  | cons a as ih =>
    rw [List.filter_cons]
    have ha : (!a.isEmpty) = true := by
      simp [List.isEmpty_iff]
      exact h a (by simp)
    rw [if_pos ha, ih (fun x hx => h x (List.mem_cons_of_mem a hx))]

/-- On files whose non-final fragments are nonempty, the expected run
output is the reverse of the file's physical lines. -/
theorem restLines_eq_fileLines_reverse {T : Text} (hT : T ≠ [])
    (hP : ∀ l ∈ (splitNl T).dropLast, l ≠ []) :
    restLines T = (fileLines T).reverse := by
  rw [restLines, fileLines]
  cases hs : splitNl T with
  | nil => exact absurd hs (splitNl_ne_nil T)
  | cons l0 ls =>
    cases ls with
    | nil =>
      have hl0 : l0 ≠ [] := by
        have := headI_splitNl_ne_nil_of_singleton hT (by rw [hs]; rfl)
        rw [hs] at this
        simpa [List.headI] using this
      rw [if_neg (by simpa [lastI] using hl0)]
      simp [List.headI]
    | cons l1 ls' =>
      have hdec : (l1 :: ls').dropLast ++ [lastI (l1 :: ls')] = l1 :: ls' := by
        have := dropLast_append_lastI_cons (l1 :: ls') (by simp) []
        simpa using this
      have hD : ∀ x ∈ (l1 :: ls').dropLast, x ≠ [] := by
        intro x hx
        apply hP
        rw [hs, List.dropLast_cons₂]
        exact List.mem_cons_of_mem l0 hx
      have hfilterD := filter_eq_self_of_ne_nil hD
      rw [lastI_cons_cons]
      by_cases hg : lastI (l1 :: ls') = []
      · rw [if_pos hg]
        rw [hg] at hdec
        simp only [List.headI, List.tail]
        conv_lhs => rw [← hdec]
        rw [List.filter_append, hfilterD]
        simp [List.dropLast_cons₂]
      · rw [if_neg hg]
        simp only [List.headI, List.tail]
        conv_lhs => rw [← hdec]
        rw [List.filter_append, hfilterD]
        have hgkeep : List.filter (fun l => !l.isEmpty) [lastI (l1 :: ls')] =
            [lastI (l1 :: ls')] := by
          rw [List.filter_cons]
          rw [if_pos (by simp [List.isEmpty_iff, hg])]
          rfl
        rw [hgkeep]
        conv_rhs => rw [← hdec]
        simp

/-- The top-level specification of the generator with
`allow_empty_lines=False` on a nonempty well-formed file whose
non-final fragments are nonempty: it emits exactly the physical lines
of the file, in reverse order, for every legal buffer size, and raises
no exception. -/
theorem generator_false_spec {enc : Nat → List Byte} {decode : List Byte → Option Text}
    (hE : GoodEncoding enc decode) {bufSize : Nat} (hbuf : 4 ≤ bufSize)
    {T : Text} (hT : T ≠ []) (hP : ∀ l ∈ (splitNl T).dropLast, l ≠ []) :
    generator decode false (encodeText enc T) bufSize = ((fileLines T).reverse, none) := by
  have hgoal : genLoop decode false (encodeText enc T) bufSize (byteLen enc T + 1)
      none 0 (byteLen enc T) = ((fileLines T).reverse, none) := by
    rw [genLoop_eq_genLoopT]
    obtain ⟨hVne, happ, hrem, hlt⟩ := step_facts hE hbuf hT
    have hstep := genLoopT_step_none hE bufSize T [] hT false (byteLen enc T)
      (min (byteLen enc T) bufSize) rfl
      ((splitSuffix enc (min (byteLen enc T) bufSize) T).2) rfl
      (min (byteLen enc T) bufSize -
        byteLen enc (splitSuffix enc (min (byteLen enc T) bufSize) T).2) rfl
    simp only [List.append_nil, byteLen_nil, Nat.add_zero] at hstep
    rw [hrem] at hstep
    have ihU := genLoopT_false_run hE hbuf T hP (byteLen enc T)
      (splitSuffix enc (min (byteLen enc T) bufSize) T).1
      (splitSuffix enc (min (byteLen enc T) bufSize) T).2
      happ.symm hVne (by omega)
    rw [hstep]
    have hcomp : Prod.snd ∘ (fun l : Text => ((YTag.splitLine, l) : YTag × Text)) =
        id := rfl
    have h1 : ((chunkTailYields false
          (splitNl (splitSuffix enc (min (byteLen enc T) bufSize) T).2)).map
            (fun l => (YTag.splitLine, l)) ++
          (genLoopT decode false (encodeText enc T) bufSize (byteLen enc T)
            (some (splitNl (splitSuffix enc (min (byteLen enc T) bufSize) T).2).headI)
            (byteLen enc (splitSuffix enc (min (byteLen enc T) bufSize) T).2)
            (byteLen enc (splitSuffix enc (min (byteLen enc T) bufSize) T).1)).1).map
          Prod.snd =
        (fileLines T).reverse := by
      simp only [List.map_append, List.map_map, hcomp, List.map_id]
      rw [ihU.1]
      rw [← restLines_eq_fileLines_reverse hT hP]
      conv_rhs => rw [← happ]
      rw [restLines_step (splitSuffix enc (min (byteLen enc T) bufSize) T).1
        (splitSuffix enc (min (byteLen enc T) bufSize) T).2]
    exact Prod.ext h1 ihU.2
  exact hgoal

/-- The top-level final-flush specification: on a nonempty well-formed
file, for either empty-line policy, the run ends with exactly one
final-segment yield carrying the file's first fragment, with no error. -/
theorem generatorT_final_spec {enc : Nat → List Byte} {decode : List Byte → Option Text}
    (hE : GoodEncoding enc decode) (b : Bool) {bufSize : Nat} (hbuf : 4 ≤ bufSize)
    {T : Text} (hT : T ≠ []) :
    ∃ ys,
      generatorT decode b (encodeText enc T) bufSize =
        (ys ++ [(YTag.finalSeg, (splitNl T).headI)], none) ∧
      ∀ p ∈ ys, p.1 ≠ YTag.finalSeg := by
  have hgoal : ∃ ys,
      genLoopT decode b (encodeText enc T) bufSize (byteLen enc T + 1)
          none 0 (byteLen enc T) =
        (ys ++ [(YTag.finalSeg, (splitNl T).headI)], none) ∧
      ∀ p ∈ ys, p.1 ≠ YTag.finalSeg := by
    obtain ⟨hVne, happ, hrem, hlt⟩ := step_facts hE hbuf hT
    have hstep := genLoopT_step_none hE bufSize T [] hT b (byteLen enc T)
      (min (byteLen enc T) bufSize) rfl
      ((splitSuffix enc (min (byteLen enc T) bufSize) T).2) rfl
      (min (byteLen enc T) bufSize -
        byteLen enc (splitSuffix enc (min (byteLen enc T) bufSize) T).2) rfl
    simp only [List.append_nil, byteLen_nil, Nat.add_zero] at hstep
    rw [hrem] at hstep
    obtain ⟨ys', hrun', htags'⟩ := genLoopT_final_run hE b hbuf T (byteLen enc T)
      (splitSuffix enc (min (byteLen enc T) bufSize) T).1
      (splitSuffix enc (min (byteLen enc T) bufSize) T).2
      happ.symm hVne (by omega)
    rw [hstep, hrun']
    refine ⟨(chunkTailYields b
        (splitNl (splitSuffix enc (min (byteLen enc T) bufSize) T).2)).map
        (fun l => (YTag.splitLine, l)) ++ ys', by simp, ?_⟩
    intro p hp
    rw [List.mem_append] at hp
    rcases hp with hp | hp
    · obtain ⟨l, -, hl⟩ := List.mem_map.mp hp
      rw [← hl]
      simp
    · exact htags' p hp
  exact hgoal

/-! ## The progress-reporting buffered reader

`_ProgressBufferedReader` (source lines 48-90) wraps an underlying
buffered byte source (`io.BufferedReader`, external) and a progress
sink (`tqdm`, external).  The byte source is modelled from the spec:
a seekable forward byte stream with a known total size; each
read-family call returns bytes from the current position and advances
it.  The sink is a counter `n` plus a refresh counter. -/

/-- Modelled from the spec: the underlying byte source (the inherited
`io.BufferedReader` over a `FileIO`), a seekable forward byte stream
with known total size. -/
structure RawSource where
  data : List Byte
  pos : Nat
  deriving DecidableEq, Repr

/-- Modelled from the spec: `super().read(size)` returns up to `size`
bytes from the current position (all remaining bytes when `size < 0`)
and advances the position by the number of bytes returned. -/
def rawRead (src : RawSource) (size : Int) : List Byte × RawSource :=
  let rest := src.data.drop src.pos
  let ret := if size < 0 then rest else rest.take size.toNat
  (ret, { src with pos := src.pos + ret.length })

/-- Modelled from the spec: `super().readinto(b)` fills the buffer `b`
of length `blen` with up to `blen` bytes and returns the count. -/
def rawReadInto (src : RawSource) (blen : Nat) : Nat × RawSource :=
  let cnt := min blen (src.data.drop src.pos).length
  (cnt, { src with pos := src.pos + cnt })

/-- Modelled from the spec: `super().readline(size)` returns bytes up
to and including the next newline (or to the end of the stream),
truncated to `size` when `0 ≤ size`. -/
def rawReadline (src : RawSource) (size : Int) : List Byte × RawSource :=
  let rest := src.data.drop src.pos
  let k := match rest.findIdx? (fun c => c = NL) with
    | some i => i + 1
    | none => rest.length
  let k2 := if size < 0 then k else min k size.toNat
  let ret := rest.take k2
  (ret, { src with pos := src.pos + ret.length })

/-- Modelled from the spec: `super().seek(offset, whence)` computes the
new absolute position (whence 0 = start, 1 = current, 2 = end), fails
on a negative target, and returns the new position. -/
def rawSeek (src : RawSource) (offset : Int) (whence : Nat) : Option (Nat × RawSource) :=
  let base : Int := if whence = 0 then 0 else if whence = 1 then src.pos else src.data.length
  let target := base + offset
  if target < 0 then none
  else some (target.toNat, { src with pos := target.toNat })

/-- The progress sink (`tqdm`): `n` is the reported position, `total`
the size passed at construction, `refreshes` counts `refresh()` calls. -/
structure ProgressBar where
  n : Nat
  total : Nat
  refreshes : Nat
  deriving DecidableEq, Repr

/-- The wrapper state: underlying byte source plus progress bar. -/
structure PBReader where
  src : RawSource
  bar : ProgressBar
  deriving DecidableEq, Repr

/-- `_ProgressBufferedReader.__init__` (source lines 49-52): the bar's
total is the file size obtained from `os.fstat`. -/
def pbrInit (data : List Byte) : PBReader :=
  { src := { data := data, pos := 0 },
    bar := { n := 0, total := data.length, refreshes := 0 } }

/-- `read` (source lines 66-69): return the bytes and report
`len(ret)` to the bar. -/
def pbrRead (st : PBReader) (size : Int) : List Byte × PBReader :=
  let r := rawRead st.src size
  (r.1, { src := r.2, bar := { st.bar with n := st.bar.n + r.1.length } })

/-- `read1` (source lines 71-74): same reporting as `read`; the
underlying one-call read is modelled like `read`. -/
def pbrRead1 (st : PBReader) (size : Int) : List Byte × PBReader :=
  let r := rawRead st.src size
  (r.1, { src := r.2, bar := { st.bar with n := st.bar.n + r.1.length } })

/-- `readinto` (source lines 76-79): report the returned count. -/
def pbrReadInto (st : PBReader) (blen : Nat) : Nat × PBReader :=
  let r := rawReadInto st.src blen
  (r.1, { src := r.2, bar := { st.bar with n := st.bar.n + r.1 } })

/-- `readline` (source lines 81-84): report `len(ret)`. -/
def pbrReadline (st : PBReader) (size : Int) : List Byte × PBReader :=
  let r := rawReadline st.src size
  (r.1, { src := r.2, bar := { st.bar with n := st.bar.n + r.1.length } })

/-- `seek` (source lines 86-90): set the bar's position to the value
returned by the underlying seek, then refresh. -/
def pbrSeek (st : PBReader) (offset : Int) (whence : Nat) : Option (Nat × PBReader) :=
  (rawSeek st.src offset whence).map fun r =>
    (r.1, { src := r.2,
            bar := { st.bar with n := r.1, refreshes := st.bar.refreshes + 1 } })

/-- The read-family operations of the wrapper. -/
inductive ReadOp where
  | read (size : Int)
  | read1 (size : Int)
  | readinto (blen : Nat)
  | readline (size : Int)
  deriving DecidableEq, Repr

/-- Run one read-family operation, returning the number of bytes
actually returned to the caller. -/
def runReadOp (st : PBReader) : ReadOp → Nat × PBReader
  | ReadOp.read size =>
    let r := pbrRead st size
    (r.1.length, r.2)
  | ReadOp.read1 size =>
    let r := pbrRead1 st size
    (r.1.length, r.2)
  | ReadOp.readinto blen =>
    let r := pbrReadInto st blen
    (r.1, r.2)
  | ReadOp.readline size =>
    let r := pbrReadline st size
    (r.1.length, r.2)

/-- Run a sequence of read-family operations, accumulating the total
number of bytes returned. -/
def runReadOps (st : PBReader) : List ReadOp → Nat × PBReader
  | [] => (0, st)
  | op :: ops =>
    let r := runReadOp st op
    let rest := runReadOps r.2 ops
    (r.1 + rest.1, rest.2)

/-- The wrapper invariant: the reported count equals the source
position, which never exceeds the source size; data and total are
unchanged. -/
theorem runReadOp_step (st : PBReader) (op : ReadOp)
    (hn : st.bar.n = st.src.pos) (hle : st.src.pos ≤ st.src.data.length) :
    (runReadOp st op).2.bar.n = (runReadOp st op).2.src.pos ∧
      (runReadOp st op).2.src.pos ≤ (runReadOp st op).2.src.data.length ∧
      (runReadOp st op).2.bar.n = st.bar.n + (runReadOp st op).1 ∧
      (runReadOp st op).2.src.data = st.src.data ∧
      (runReadOp st op).2.bar.total = st.bar.total := by
  cases op with
  | read size =>
    simp only [runReadOp, pbrRead, rawRead]
    by_cases hsz : size < 0 <;>
      simp only [if_pos, if_neg, hsz, ite_true, ite_false] <;>
      refine ⟨by rw [hn], ?_, by trivial, by trivial, by trivial⟩ <;>
      simp only [List.length_take, List.length_drop] <;> omega
  | read1 size =>
    simp only [runReadOp, pbrRead1, rawRead]
    by_cases hsz : size < 0 <;>
      simp only [if_pos, if_neg, hsz, ite_true, ite_false] <;>
      refine ⟨by rw [hn], ?_, by trivial, by trivial, by trivial⟩ <;>
      simp only [List.length_take, List.length_drop] <;> omega
  | readinto blen =>
    simp only [runReadOp, pbrReadInto, rawReadInto]
    refine ⟨by rw [hn], ?_, by trivial, by trivial, by trivial⟩
    simp only [List.length_drop]
    omega
  | readline size =>
    simp only [runReadOp, pbrReadline, rawReadline]
    refine ⟨by rw [hn], ?_, by trivial, by trivial, by trivial⟩
    simp only [List.length_take]
    have : (st.src.data.drop st.src.pos).length = st.src.data.length - st.src.pos :=
      List.length_drop st.src.pos st.src.data
    omega

theorem runReadOps_invariant (ops : List ReadOp) :
    ∀ (st : PBReader), st.bar.n = st.src.pos → st.src.pos ≤ st.src.data.length →
      (runReadOps st ops).2.bar.n = st.bar.n + (runReadOps st ops).1 ∧
        (runReadOps st ops).2.src.pos ≤ (runReadOps st ops).2.src.data.length ∧
        (runReadOps st ops).2.bar.n = (runReadOps st ops).2.src.pos ∧
        (runReadOps st ops).2.src.data = st.src.data ∧
        (runReadOps st ops).2.bar.total = st.bar.total := by
  induction ops with
  | nil => intro st hn hle; exact ⟨by simp [runReadOps], by simpa [runReadOps] using hle,
      by simpa [runReadOps] using hn, rfl, rfl⟩
  | cons op ops ih =>
    intro st hn hle
    obtain ⟨h1, h2, h3, h4, h5⟩ := runReadOp_step st op hn hle
    obtain ⟨g1, g2, g3, g4, g5⟩ := ih (runReadOp st op).2 h1 h2
    simp only [runReadOps]
    refine ⟨?_, ?_, g3, ?_, ?_⟩
    · rw [g1, h3]
      omega
    · exact g2
    · rw [g4, h4]
    · rw [g5, h5]

/-! ## Closing the wrapper -/

/-- Whether the progress bar and the raw byte source have been closed. -/
structure PBRCloseState where
  barClosed : Bool
  rawClosed : Bool
  deriving DecidableEq, Repr

/-- `_ProgressBufferedReader.close` (source lines 63-64): the override
closes only the tqdm progress bar; it does not call the inherited
close, so the underlying byte source is not closed. -/
def pbrClose (st : PBRCloseState) : PBRCloseState :=
  { st with barClosed := true }

/-- `__exit__` (source lines 58-61): modelled from the spec for the
external collaborators: `io.IOBase.__exit__` calls `self.close()`
(which dispatches to the override above), then `tqdm.__exit__` closes
the bar again. -/
def pbrExit (st : PBRCloseState) : PBRCloseState :=
  pbrClose (pbrClose st)

/-! ## `shut_up` (source lines 18-45) -/

/-- Where the two standard file descriptors currently point. -/
structure StdStreams where
  stdoutToNull : Bool
  stderrToNull : Bool
  deriving DecidableEq, Repr

/-- Source lines 36-40: duplicate the null device over the selected
descriptors. -/
def shutUpRedirect (stdout stderr : Bool) (fds : StdStreams) : StdStreams :=
  { stdoutToNull := stdout || fds.stdoutToNull,
    stderrToNull := stderr || fds.stderrToNull }

/-- Source lines 43-45: restore the saved duplicates over the selected
descriptors. -/
def shutUpRestore (stdout stderr : Bool) (saved fds : StdStreams) : StdStreams :=
  { stdoutToNull := if stdout then saved.stdoutToNull else fds.stdoutToNull,
    stderrToNull := if stderr then saved.stderrToNull else fds.stderrToNull }

/-- One run of the `shut_up` context manager around a body that either
completes or raises.  Modelled from the spec for the external
`contextlib.contextmanager` machinery: an exception raised by the body
is thrown into the generator at the `yield` (source line 41); because
the code after the `yield` is not protected by try/finally, the restore
code (lines 43-45) only runs when the body completes normally.  The
Bool of the result records whether the exception propagated. -/
def shutUpRun (stderr stdout : Bool) (bodyRaises : Bool) (fds : StdStreams) :
    StdStreams × Bool :=
  let saved := fds
  let inside := shutUpRedirect stdout stderr fds
  if bodyRaises then (inside, true)
  else (shutUpRestore stdout stderr saved inside, false)

/-! ## `reverse_open` and `progress_open` construction -/

/-- `reverse_open` (source lines 216-221): the buffer-size check
precedes `open(path, "rb")`.  The second component records whether the
file was opened (any I/O attempted). -/
def reverseOpenEvents (bufferSize : Nat) : Option PyErr × Bool :=
  if bufferSize < MAX_CHAR_BYTES then (some PyErr.valueError, false)
  else (none, true)

/-- What `progress_open.__new__` returns. -/
inductive POResult where
  | plain
  | wrapped
  | error (e : PyErr)
  deriving DecidableEq, Repr

/-- `progress_open.__new__` (source lines 114-127): `verbose` is tested
first; with `verbose=False` a plain `open(path, mode)` is returned for
any mode.  Otherwise the mode check precedes `io.FileIO(path)`.  The
second component records whether any file I/O was attempted. -/
def progressOpenNew (mode : List Char) (verbose : Bool) : POResult × Bool :=
  if !verbose then (POResult.plain, true)
  else if mode = ['r'] ∨ mode = ['r', 'b'] then
    (POResult.wrapped, true)
  else (POResult.error PyErr.valueError, false)

/-! ## Reading from `_ReverseReadlineFile` -/

/-- `_ReverseReadlineFile.__next__` (source lines 188-189): the
generator's next line with a newline appended, or the end of the
stream. -/
def readerNext (gen : List Text) : Option (Text × List Text) :=
  match gen with
  | [] => none
  | l :: rest => some (l ++ [NL], rest)

/-- `_ReverseReadlineFile.readline` (source lines 197-198): the
generator's next line as produced. -/
def readerReadline (gen : List Text) : Option (Text × List Text) :=
  match gen with
  | [] => none
  | l :: rest => some (l, rest)

/-! ## Claims -/

/-- A decode function that fails on any chunk containing byte 255,
used to exercise the decode-retry budget. -/
def decode255 (bs : List Byte) : Option Text :=
  if 255 ∈ bs then none else some bs

/-- C1, counterexample: the claim fails as stated.  For the well-formed
ASCII file `"qq\n\nabc"` and the legal buffer sizes 4 and 8192 (both
`≥ MAX_CHAR_BYTES`), the generator with the default
`allow_empty_lines=False` emits different line sequences (with buffer
size 4 a chunk boundary between the two newlines makes the mid-stream
flush emit an empty line); with `allow_empty_lines=True`, the file
`"ab\ncdef"` also yields different sequences for the two buffer sizes
(a spurious empty fragment at the chunk boundary after the newline).
So neither the byte-exact round trip nor buffer-size invariance holds
for every well-formed file and every legal chunk size. -/
theorem c1_buffer_size_variance_counterexample :
    generator asciiDecode false [113, 113, 10, 10, 97, 98, 99] 4 ≠
      generator asciiDecode false [113, 113, 10, 10, 97, 98, 99] 8192 ∧
    generator asciiDecode false [113, 113, 10, 10, 97, 98, 99] 4 =
      ([[97, 98, 99], [], [113, 113]], none) ∧
    generator asciiDecode false [113, 113, 10, 10, 97, 98, 99] 8192 =
      ([[97, 98, 99], [113, 113]], none) ∧
    generator asciiDecode true [97, 98, 10, 99, 100, 101, 102] 4 ≠
      generator asciiDecode true [97, 98, 10, 99, 100, 101, 102] 8192 := by
  refine ⟨by decide, by decide, by decide, by decide⟩

/-- C1, amended: for every well-formed nonempty text file all of whose
non-final split fragments are nonempty (no leading or consecutive line
breaks), with the default `allow_empty_lines=False` and any legal
buffer size (`≥ MAX_CHAR_BYTES`), the generator yields exactly the
file's physical lines (trailing-newline convention), byte-for-byte, in
reverse physical order, with no error — and therefore the output is
identical across all legal buffer sizes. -/
theorem c1_round_trip_amended {enc : Nat → List Byte} {decode : List Byte → Option Text}
    (hE : GoodEncoding enc decode) {T : Text} (hT : T ≠ [])
    (hP : ∀ l ∈ (splitNl T).dropLast, l ≠ []) {bufSize : Nat}
    (hbuf : MAX_CHAR_BYTES ≤ bufSize) :
    generator decode false (encodeText enc T) bufSize = ((fileLines T).reverse, none) ∧
    ∀ bufSize2 : Nat, MAX_CHAR_BYTES ≤ bufSize2 →
      generator decode false (encodeText enc T) bufSize =
        generator decode false (encodeText enc T) bufSize2 := by
  have h1 := generator_false_spec hE (show 4 ≤ bufSize from hbuf) hT hP
  refine ⟨h1, fun bufSize2 h2 => ?_⟩
  rw [h1, generator_false_spec hE (show 4 ≤ bufSize2 from h2) hT hP]

/-- C1, witness for the amended claim at the file `"q\nb\n"` with
buffer sizes 7 and 8192. -/
theorem c1_round_trip_amended_witness :
    (generator asciiDecode false (encodeText asciiEnc [113, 10, 98, 10]) 7 =
        ((fileLines [113, 10, 98, 10]).reverse, none) ∧
      generator asciiDecode false (encodeText asciiEnc [113, 10, 98, 10]) 7 =
        generator asciiDecode false (encodeText asciiEnc [113, 10, 98, 10]) 8192) ∧
    (fileLines [113, 10, 98, 10]).reverse = [[98], [113]] :=
  ⟨⟨(c1_round_trip_amended goodEncoding_ascii (by decide) (by decide) (by decide)).1,
    (c1_round_trip_amended goodEncoding_ascii (by decide) (by decide)
      (by decide)).2 8192 (by decide)⟩,
   by decide⟩

/-- C2, counterexample: with `allow_empty_lines=False` the output can
contain empty lines.  A file consisting of a single newline yields one
empty line (the final pending-segment flush, source line 179, bypasses
the filter), and for `"qq\n\nabc"` with buffer size 4 the mid-stream
flush (source line 172) emits an empty line. -/
theorem c2_empty_line_flush_counterexample :
    generator asciiDecode false [10] 4 = ([[]], none) ∧
    generator asciiDecode false [113, 113, 10, 10, 97, 98, 99] 4 =
      ([[97, 98, 99], [], [113, 113]], none) ∧
    generator asciiDecode true [10, 10] 4 = ([[], [], []], none) := by
  refine ⟨by decide, by decide, by decide⟩

/-- C2, amended: with `allow_empty_lines=False` every line emitted by
the split-tail loop (source line 176) is nonempty, for every file,
decode function and loop state; pending-segment flushes (source lines
172 and 179) bypass the filter and may emit empty lines.  With
`allow_empty_lines=True` the split-tail loop yields every fragment
unfiltered.  The tagged and caller-visible streams agree after erasing
the tags. -/
theorem c2_empty_line_filter_amended :
    (∀ (decode : List Byte → Option Text) (file : List Byte) (bufSize fuel : Nat)
        (segment : Option Text) (offset remaining : Nat) (l : Text),
      (YTag.splitLine, l) ∈
        (genLoopT decode false file bufSize fuel segment offset remaining).1 →
      l ≠ []) ∧
    (∀ lines : List Text, chunkTailYields true lines = lines.tail.reverse) ∧
    (∀ (decode : List Byte → Option Text) (b : Bool) (file : List Byte) (bufSize : Nat),
      generator decode b file bufSize =
        ((generatorT decode b file bufSize).1.map Prod.snd,
          (generatorT decode b file bufSize).2)) :=
  ⟨fun decode file bufSize fuel => splitLine_yields_ne_nil decode file bufSize fuel,
   chunkTailYields_true,
   generator_eq_generatorT⟩

/-- C2, witness: a split-tail yield of a concrete run is nonempty, and
the unfiltered split-tail loop keeps an empty fragment. -/
theorem c2_empty_line_filter_amended_witness :
    ([98] : Text) ≠ [] ∧ chunkTailYields true [[97], []] = [[]] :=
  ⟨c2_empty_line_filter_amended.1 asciiDecode [97, 10, 98] 4 4 none 0 3 [98] (by decide),
   (c2_empty_line_filter_amended.2.1 [[97], []]).trans (by decide)⟩

/-- C3 (confirmed): the decode-retry loop drops the first byte of the
chunk (shrinking the effective chunk size and offset by one) on each
failed attempt; after `d ≤ MAX_CHAR_BYTES - 1` failures followed by a
success it returns the decoded text with chunk size and offset shrunk
by `d`; if all `MAX_CHAR_BYTES` attempts fail, the decode error is
re-raised unmodified.  A failing run terminates the sequence while the
lines yielded before the failure remain yielded (concrete run: four
undecodable bytes before `"a\nbc"`). -/
theorem c3_decode_retry :
    (∀ (decode : List Byte → Option Text) (bs : List Byte) (cbs off d : Nat) (t : Text),
      d ≤ MAX_CHAR_BYTES - 1 → (∀ j, j < d → decode (bs.drop j) = none) →
      decode (bs.drop d) = some t →
      decodeRetry decode MAX_CHAR_BYTES bs cbs off = some (t, cbs - d, off - d)) ∧
    (∀ (decode : List Byte → Option Text) (bs : List Byte) (cbs off : Nat),
      (∀ j, j ≤ MAX_CHAR_BYTES - 1 → decode (bs.drop j) = none) →
      decodeRetry decode MAX_CHAR_BYTES bs cbs off = none) ∧
    generator decode255 false [255, 255, 255, 255, 97, 10, 98, 99] 4 =
      ([[98, 99]], some PyErr.unicodeDecodeError) := by
  refine ⟨?_, ?_, by decide⟩
  · intro decode bs cbs off d t hd hfail hsucc
    exact decodeRetry_success decode bs cbs off d t hd hfail hsucc
  · intro decode bs cbs off hfail
    exact decodeRetry_exhausted decode bs cbs off hfail

/-- C3, witness: an immediately-successful decode returns unshrunk
chunk size and offset; a decode that always fails exhausts the budget. -/
theorem c3_decode_retry_witness :
    decodeRetry asciiDecode MAX_CHAR_BYTES [1, 2] 7 9 = some ([1, 2], 7, 9) ∧
    decodeRetry (fun _ => none) MAX_CHAR_BYTES [1, 2] 7 9 = none :=
  ⟨c3_decode_retry.1 asciiDecode [1, 2] 7 9 0 [1, 2] (by decide)
      (fun j hj => absurd hj (by omega)) rfl,
   c3_decode_retry.2.1 (fun _ => none) [1, 2] 7 9 (fun _ _ => rfl)⟩

/-- C4 (confirmed): an empty file yields an empty sequence with no
error; on any nonempty well-formed file, for either empty-line policy
and any legal buffer size, the run ends with exactly one final-segment
yield (never duplicated, never dropped, after all other lines) whose
content is the file's first physical line (the whole file if it has no
line break) — in particular a file whose last byte is not a line break
still yields that line exactly once. -/
theorem c4_final_segment :
    (∀ (decode : List Byte → Option Text) (b : Bool) (bufSize : Nat),
      generator decode b [] bufSize = ([], none)) ∧
    (∀ (enc : Nat → List Byte) (decode : List Byte → Option Text),
      GoodEncoding enc decode → ∀ (b : Bool) (bufSize : Nat),
      MAX_CHAR_BYTES ≤ bufSize → ∀ (T : Text), T ≠ [] →
      ∃ ys,
        generatorT decode b (encodeText enc T) bufSize =
          (ys ++ [(YTag.finalSeg, (splitNl T).headI)], none) ∧
        (∀ p ∈ ys, p.1 ≠ YTag.finalSeg) ∧
        generator decode b (encodeText enc T) bufSize =
          (ys.map Prod.snd ++ [(splitNl T).headI], none)) := by
  constructor
  · intro decode b bufSize
    rfl
  · intro enc decode hE b bufSize hbuf T hT
    obtain ⟨ys, hrun, htags⟩ :=
      generatorT_final_spec hE b (show 4 ≤ bufSize from hbuf) hT
    refine ⟨ys, hrun, htags, ?_⟩
    rw [generator_eq_generatorT, hrun]
    simp

/-- C4, witness: the file `"ab"` (no trailing newline) yields its only
line exactly once, as the final pending-segment flush; the empty file
yields nothing. -/
theorem c4_final_segment_witness :
    generator asciiDecode true [] 4 = ([], none) ∧
    ∃ ys,
      generatorT asciiDecode false (encodeText asciiEnc [97, 98]) 4 =
        (ys ++ [(YTag.finalSeg, (splitNl [97, 98]).headI)], none) ∧
      (∀ p ∈ ys, p.1 ≠ YTag.finalSeg) ∧
      generator asciiDecode false (encodeText asciiEnc [97, 98]) 4 =
        (ys.map Prod.snd ++ [(splitNl [97, 98]).headI], none) :=
  ⟨c4_final_segment.1 asciiDecode true 4,
   c4_final_segment.2 asciiEnc asciiDecode goodEncoding_ascii false 4 (by decide)
     [97, 98] (by decide)⟩

/-- C5 (confirmed): starting from a freshly constructed wrapper, after
any sequence of read-family operations the progress sink's count
equals the total number of bytes actually returned and never exceeds
the sink's total, which is the source's size; and every successful
seek sets the sink's count to exactly the value returned by the seek
and triggers one refresh. -/
theorem c5_progress_reporting :
    (∀ (data : List Byte) (ops : List ReadOp),
      (runReadOps (pbrInit data) ops).2.bar.n = (runReadOps (pbrInit data) ops).1 ∧
      (runReadOps (pbrInit data) ops).2.bar.n ≤
        (runReadOps (pbrInit data) ops).2.bar.total ∧
      (runReadOps (pbrInit data) ops).2.bar.total = data.length) ∧
    (∀ (st : PBReader) (offset : Int) (whence : Nat) (ret : Nat) (st' : PBReader),
      pbrSeek st offset whence = some (ret, st') →
      st'.bar.n = ret ∧ st'.bar.refreshes = st.bar.refreshes + 1) := by
  constructor
  · intro data ops
    obtain ⟨h1, h2, h3, h4, h5⟩ :=
      runReadOps_invariant ops (pbrInit data) rfl (by simp [pbrInit])
    refine ⟨by rw [h1]; simp [pbrInit], ?_, by rw [h5]; rfl⟩
    rw [h3, h5]
    have h2' := h2
    rw [h4] at h2'
    exact h2'
  · intro st offset whence ret st' hseek
    simp only [pbrSeek] at hseek
    cases hraw : rawSeek st.src offset whence with
    | none => rw [hraw] at hseek; simp at hseek
    | some r =>
      rw [hraw, Option.map_some'] at hseek
      have hp := Option.some.inj hseek
      rw [Prod.mk.injEq] at hp
      obtain ⟨hret, hst'⟩ := hp
      rw [← hst']
      exact ⟨hret, rfl⟩

/-- C5, witness: two reads over a four-byte source, and a concrete
seek. -/
theorem c5_progress_reporting_witness :
    ((runReadOps (pbrInit [1, 2, 10, 3]) [ReadOp.read 2, ReadOp.readline (-1)]).2.bar.n =
        (runReadOps (pbrInit [1, 2, 10, 3]) [ReadOp.read 2, ReadOp.readline (-1)]).1 ∧
      (runReadOps (pbrInit [1, 2, 10, 3]) [ReadOp.read 2, ReadOp.readline (-1)]).2.bar.n ≤
        (runReadOps (pbrInit [1, 2, 10, 3]) [ReadOp.read 2, ReadOp.readline (-1)]).2.bar.total ∧
      (runReadOps (pbrInit [1, 2, 10, 3]) [ReadOp.read 2, ReadOp.readline (-1)]).2.bar.total =
        ([1, 2, 10, 3] : List Byte).length) ∧
    ((⟨⟨[1, 2, 3], 2⟩, ⟨2, 3, 1⟩⟩ : PBReader).bar.n = 2 ∧
      (⟨⟨[1, 2, 3], 2⟩, ⟨2, 3, 1⟩⟩ : PBReader).bar.refreshes =
        (pbrInit [1, 2, 3]).bar.refreshes + 1) :=
  ⟨c5_progress_reporting.1 [1, 2, 10, 3] [ReadOp.read 2, ReadOp.readline (-1)],
   c5_progress_reporting.2 (pbrInit [1, 2, 3]) 2 0 2 ⟨⟨[1, 2, 3], 2⟩, ⟨2, 3, 1⟩⟩
     (by decide)⟩

/-- C6 (code bug): `_ProgressBufferedReader.close` closes only the
progress sink; the underlying byte source is not closed, on either the
direct `close()` path or the context-manager exit path.  The claim
(and the spec) say the source is closed after the sink; the override
never calls the inherited close. -/
theorem c6_close_leaves_source_open :
    pbrClose ⟨false, false⟩ = ⟨true, false⟩ ∧
    pbrExit ⟨false, false⟩ = ⟨true, false⟩ ∧
    (pbrClose ⟨false, false⟩).rawClosed = false ∧
    (pbrExit ⟨false, false⟩).rawClosed = false := by
  refine ⟨by decide, by decide, by decide, by decide⟩

/-- C7 (confirmed): `reverse_open` raises `ValueError` for any buffer
size strictly below `MAX_CHAR_BYTES`, before the file is opened (no
I/O); with a legal buffer size no error is raised and the file is
opened. -/
theorem c7_buffer_size_validation :
    (∀ n : Nat, n < MAX_CHAR_BYTES →
      reverseOpenEvents n = (some PyErr.valueError, false)) ∧
    (∀ n : Nat, MAX_CHAR_BYTES ≤ n → reverseOpenEvents n = (none, true)) := by
  constructor
  · intro n hn
    rw [reverseOpenEvents, if_pos hn]
  · intro n hn
    rw [reverseOpenEvents, if_neg (by omega)]

/-- C7, witness: buffer size 2 is rejected with no I/O; buffer size
8192 is accepted. -/
theorem c7_buffer_size_validation_witness :
    reverseOpenEvents 2 = (some PyErr.valueError, false) ∧
    reverseOpenEvents 8192 = (none, true) :=
  ⟨c7_buffer_size_validation.1 2 (by decide),
   c7_buffer_size_validation.2 8192 (by decide)⟩

/-- C8, counterexample: with `verbose=False`, `progress_open` returns a
plain `open(path, mode)` handle for any mode — the mode check is never
reached — so mode `"w"` with `verbose=False` raises no `ValueError`,
contradicting the claim's "regardless of the verbose flag". -/
theorem c8_mode_check_counterexample :
    progressOpenNew ['w'] false = (POResult.plain, true) ∧
    (progressOpenNew ['w'] false).1 ≠ POResult.error PyErr.valueError := by
  refine ⟨by decide, by decide⟩

/-- C8, amended: when `verbose=True`, every mode other than `"r"` and
`"rb"` fails with `ValueError` at construction, before any I/O; when
`verbose=False`, a plain unwrapped handle is returned without mode
validation. -/
theorem c8_mode_check_amended :
    (∀ mode : List Char, mode ≠ ['r'] → mode ≠ ['r', 'b'] →
      progressOpenNew mode true = (POResult.error PyErr.valueError, false)) ∧
    (∀ mode : List Char, progressOpenNew mode false = (POResult.plain, true)) := by
  constructor
  · intro mode h1 h2
    rw [progressOpenNew]
    rw [if_neg (by simp)]
    rw [if_neg (by simp [h1, h2])]
  · intro mode
    rfl

/-- C8, witness: mode `"w"` with `verbose=True` is rejected before any
I/O; with `verbose=False` it is not validated. -/
theorem c8_mode_check_amended_witness :
    progressOpenNew ['w'] true = (POResult.error PyErr.valueError, false) ∧
    progressOpenNew ['w'] false = (POResult.plain, true) :=
  ⟨c8_mode_check_amended.1 ['w'] (by decide) (by decide),
   c8_mode_check_amended.2 ['w']⟩

/-- C9 (code bug): the descriptor-restoring code of `shut_up` (source
lines 43-45) follows the `yield` without a try/finally, so when the
body raises, the exception propagates from the yield and the selected
descriptors stay redirected to the null device; on normal exit they
are restored.  The claim says they are restored on every exit path. -/
theorem c9_shut_up_no_restore_on_exception :
    shutUpRun true false true ⟨false, false⟩ = (⟨false, true⟩, true) ∧
    shutUpRun true false false ⟨false, false⟩ = (⟨false, false⟩, false) ∧
    shutUpRun true true true ⟨false, false⟩ = (⟨true, true⟩, true) := by
  refine ⟨by decide, by decide, by decide⟩

/-- C10 (confirmed): iterating the reverse reader (`__next__`) yields
each generator line with a newline appended unconditionally — including
the last pull, the file's first physical line, even when the file has
no trailing newline — while `readline()` returns the identical line
without the newline; at every point of the generator's stream the two
access paths differ by exactly the trailing newline. -/
theorem c10_next_vs_readline :
    (∀ gen : List Text,
      readerNext gen = Option.map (fun p => (p.1 ++ [NL], p.2)) (readerReadline gen)) ∧
    (∀ (decode : List Byte → Option Text) (b : Bool) (file : List Byte)
        (bufSize i : Nat),
      readerNext ((generator decode b file bufSize).1.drop i) =
        Option.map (fun p => (p.1 ++ [NL], p.2))
          (readerReadline ((generator decode b file bufSize).1.drop i))) := by
  have hgen : ∀ gen : List Text,
      readerNext gen = Option.map (fun p => (p.1 ++ [NL], p.2)) (readerReadline gen) := by
    intro gen
    cases gen <;> rfl
  exact ⟨hgen, fun decode b file bufSize i => hgen _⟩
